import Mathlib

/-!
Verification of `datacube/utils/uris.py` (URI/path reconciliation utilities).

Strings are modelled as `List Char`.  The Python functions under test call
several standard-library routines (`re`, `urllib.parse.urlsplit`,
`urllib.parse.parse_qsl`, `urllib.parse.unquote`, `urllib.request.url2pathname`,
`os.path.normpath`, `pathlib.PurePosixPath`); those routines are embedded here
as well, following the CPython 3.11 sources, since the behaviour of the
functions under test is inseparable from them.

Modelling scope (noted where relevant below):
* character classes of Python's `re` module (`\w`, `\s`) are transcribed
  exactly for all code points up to U+00FF (the tables below list every
  match in that range).  Python's full Unicode tables beyond U+00FF are not
  transcribed; instead, the classifier and `as_url` are stated over
  parameterised classes (`urlReClassW`, `pySpaceCharW`, `is_urlW`, `as_url`)
  that take the above-U+00FF behaviour as arbitrary function parameters, and
  the theorems about them quantify over every such extension — so they hold
  in particular at the extension that equals Python's real tables.  The
  fixed-table `is_url` (the zero extension, see `is_urlW_zero`) is used only
  in the ASCII-restricted classifier theorem.
* `urlsplit` embeds the scheme/netloc/query/fragment splitting and the
  "Invalid IPv6 URL" `ValueError` (present in every CPython version)
  faithfully, but omits two further rejection paths: the `_checknetloc`
  NFKC check (needs Unicode normalisation data) and the Python-3.11
  `_check_bracketed_host` validation (needs `ipaddress` parsing).  The
  embedded parser therefore accepts a superset of the really-accepted
  locators, with identical components on the really-accepted ones.  Every
  theorem below uses parse success only in hypothesis position, so real
  acceptance implies the hypothesis and the conclusions transfer; the
  counterexamples use only the faithfully-embedded bracket `ValueError`.
* `pathlib.Path` values are represented by their canonical string form
  (`str(path)`); wrapping a computed string in `pathlib.Path(...)` at a
  return site is modelled as returning the string itself, with the
  constructor's parsing/normalisation embedded explicitly where the code
  relies on it (`pathlib.Path(p)` on entry of `normalise_path`, `Path(pwd)`
  in `default_base_dir`, joining with `/`).
* POSIX path syntax is used for `os.path.normpath` and `pathlib.Path`
  (the claims' examples are all POSIX); the Windows-specific
  `nturl2path.url2pathname` used by `uri_to_local_path` on `os.name == 'nt'`
  is embedded separately and faithfully.
-/

namespace Uris

/-- Strings are lists of characters. -/
abbrev Str := List Char

/-- Coerce a Lean string literal to the `List Char` representation. -/
def strL (s : String) : Str := s.data

/-! ## Character classes of Python's `re` module

`URL_RE = re.compile(r'\A\s*[\w\d\+]+://')` from the source.  Python's `\s`
and `\w` are Unicode-aware; the classes below transcribe their full tables
up to U+00FF, checked exhaustively over 0x00-0xFF against CPython 3.11:
`\s` matches exactly 0x09-0x0D, 0x1C-0x20, 0x85, 0xA0; `\w` matches exactly
0x30-0x39, 0x41-0x5A, 0x5F, 0x61-0x7A, 0xAA, 0xB2-0xB3, 0xB5, 0xB9-0xBA,
0xBC-0xBE, 0xC0-0xD6, 0xD8-0xF6, 0xF8-0xFF.  Above U+00FF the tables are
not transcribed; classifier theorems use the parameterised classes
`pySpaceCharW`/`urlReClassW` below, quantified over every extension. -/

/-- Python regex `\s` (whitespace), ASCII plus Latin-1 portion. -/
def pySpaceChar (c : Char) : Bool :=
  (0x09 ≤ c.toNat && c.toNat ≤ 0x0D) || c.toNat = 0x20 ||
  (0x1C ≤ c.toNat && c.toNat ≤ 0x1F) || c.toNat = 0x85 || c.toNat = 0xA0

/-- Latin-1 word characters above ASCII (Unicode letters and numerics in
U+00AA..U+00FF: feminine/masculine ordinals, micro sign, superscript digits
2, 3 and 1, vulgar fractions, and the accented letters). -/
def latin1Word (c : Char) : Bool :=
  c.toNat = 0xAA || (0xB2 ≤ c.toNat && c.toNat ≤ 0xB3) || c.toNat = 0xB5 ||
  (0xB9 ≤ c.toNat && c.toNat ≤ 0xBA) || (0xBC ≤ c.toNat && c.toNat ≤ 0xBE) ||
  (0xC0 ≤ c.toNat && c.toNat ≤ 0xD6) || (0xD8 ≤ c.toNat && c.toNat ≤ 0xF6) ||
  (0xF8 ≤ c.toNat && c.toNat ≤ 0xFF)

/-- Python regex `\w` (word character), ASCII plus Latin-1 portion:
`[A-Za-z0-9_]` plus the Latin-1 letters. -/
def pyWordChar (c : Char) : Bool :=
  (0x41 ≤ c.toNat && c.toNat ≤ 0x5A) || (0x61 ≤ c.toNat && c.toNat ≤ 0x7A) ||
  (0x30 ≤ c.toNat && c.toNat ≤ 0x39) || c.toNat = 0x5F || latin1Word c

/-- The character class `[\w\d\+]` of `URL_RE` (`\d` is contained in `\w`;
`+` is code point 0x2B). -/
def urlReClass (c : Char) : Bool :=
  pyWordChar c || (0x30 ≤ c.toNat && c.toNat ≤ 0x39) || c.toNat = 0x2B

/-- Does a string start with `"://"`? -/
def startsCSS : Str → Bool
  | c1 :: c2 :: c3 :: _ => c1 = ':' && c2 = '/' && c3 = '/'
  | _ => false

/-- Matcher for `URL_RE`, i.e. the anchored pattern `\A\s*[\w\d\+]+://`.
The greedy regex is deterministic here: the `\s` and `[\w\d\+]` classes are
disjoint and neither contains `:`, so backtracking to a shorter `\s*` run
would place a whitespace character where a word character is required, and
backtracking to a shorter `[\w\d\+]+` run would place a word character where
the literal `:` is required.  Hence matching is: skip the maximal whitespace
run, take the maximal word-class run (which must be non-empty), then require
the literal `://`. -/
def matchUrlRe (s : Str) : Bool :=
  let t := s.dropWhile pySpaceChar
  !(t.takeWhile urlReClass).isEmpty && startsCSS (t.dropWhile urlReClass)

/-- Any Python value handed to `is_url`: either a `str` or some non-string
value (`None`, `int`, `bytes`, ...).  `URL_RE.match` raises `TypeError` on
every non-string, which `is_url` catches. -/
inductive PyVal where
  | pstr (s : Str)
  | nonstr
deriving DecidableEq, Repr

/-- Embedding of `is_url` from the source:
`URL_RE.match(url_str) is not None`, with `TypeError` (non-string argument)
caught and turned into `False`. -/
def is_url : PyVal → Bool
  | .pstr s => matchUrlRe s
  | .nonstr => false

/-! ## The specification's pattern for C2

Modelled from the spec: the claim's pattern is `^\s*[A-Za-z0-9_+]+://`, with
an explicitly ASCII scheme-character class (this is the definition the claim
is compared against; the source's class is `[\w\d\+]`). -/

/-- The claim's scheme-character class `[A-Za-z0-9_+]` (by code point:
`A`-`Z` is 0x41-0x5A, `a`-`z` is 0x61-0x7A, `0`-`9` is 0x30-0x39, `_` is
0x5F, `+` is 0x2B). -/
def specSchemeChar (c : Char) : Bool :=
  (0x41 ≤ c.toNat && c.toNat ≤ 0x5A) || (0x61 ≤ c.toNat && c.toNat ≤ 0x7A) ||
  (0x30 ≤ c.toNat && c.toNat ≤ 0x39) || c.toNat = 0x5F || c.toNat = 0x2B

/-- Matcher for the claim's anchored pattern `^\s*[A-Za-z0-9_+]+://`
(same deterministic-greedy argument as for `matchUrlRe`). -/
def specMatch (s : Str) : Bool :=
  let t := s.dropWhile pySpaceChar
  !(t.takeWhile specSchemeChar).isEmpty && startsCSS (t.dropWhile specSchemeChar)

/-- Declarative reading of the claim's pattern: some whitespace, then a
non-empty run of `[A-Za-z0-9_+]`, then the literal `://`, then anything. -/
def SpecPattern (s : Str) : Prop :=
  ∃ w k rest, s = w ++ k ++ ':' :: '/' :: '/' :: rest ∧
    (∀ c ∈ w, pySpaceChar c) ∧ k ≠ [] ∧ (∀ c ∈ k, specSchemeChar c)

/-! ## Decimal rendering (`'{:d}'.format`) and `int()` parsing -/

/-- Character for a decimal digit value. -/
def digitChar (d : Nat) : Char := Char.ofNat (48 + d)

/-- Decimal digits of `n`, most significant first; fuel-structured so that it
reduces definitionally (`natDecAux (n+1) n` suffices since `n` has at most
`n+1` digits). -/
def natDecAux : Nat → Nat → Str
  | 0, _ => []
  | _ + 1, 0 => []
  | fuel + 1, n + 1 =>
    natDecAux fuel ((n + 1) / 10) ++ [digitChar ((n + 1) % 10)]

/-- Decimal rendering of a natural number, as `'{:d}'.format` produces. -/
def natDec (n : Nat) : Str := if n = 0 then ['0'] else natDecAux (n + 1) n

/-- Decimal rendering of an integer (`-` sign for negatives, no `+` sign),
as `'{:d}'.format` produces. -/
def intDec (n : Int) : Str :=
  if n < 0 then '-' :: natDec n.natAbs else natDec n.toNat

theorem natDecAux_eq_digits (fuel : Nat) :
    ∀ n, n ≤ fuel → natDecAux fuel n = ((Nat.digits 10 n).reverse).map digitChar := by
  induction fuel with
  | zero =>
    intro n hn
    interval_cases n
    simp [natDecAux]
  | succ f ih =>
    intro n hn
    match n with
    | 0 => simp [natDecAux]
    | m + 1 =>
      have hdiv : (m + 1) / 10 ≤ f := by
        have := Nat.div_lt_self (Nat.succ_pos m) (by norm_num : 1 < 10)
        omega
      rw [natDecAux, ih _ hdiv, Nat.digits_def' (by norm_num : 1 < 10) (Nat.succ_pos m)]
      simp

theorem natDec_eq_digits {n : Nat} (hn : 0 < n) :
    natDec n = ((Nat.digits 10 n).reverse).map digitChar := by
  rw [natDec, if_neg (Nat.pos_iff_ne_zero.mp hn)]
  exact natDecAux_eq_digits (n + 1) n (Nat.le_succ n)

theorem digitChar_isDigit {d : Nat} (hd : d < 10) : (digitChar d).isDigit = true := by
  interval_cases d <;> decide

theorem digitChar_toNat {d : Nat} (hd : d < 10) : (digitChar d).toNat = 48 + d := by
  interval_cases d <;> decide

/-- Every character of `natDec n` is an ASCII digit. -/
theorem natDec_all_digit (n : Nat) : ∀ c ∈ natDec n, c.isDigit = true := by
  rcases Nat.eq_zero_or_pos n with h | h
  · subst h; intro c hc; simp [natDec] at hc; subst hc; decide
  · rw [natDec_eq_digits h]
    intro c hc
    simp only [List.mem_map, List.mem_reverse] at hc
    obtain ⟨d, hd, rfl⟩ := hc
    exact digitChar_isDigit (Nat.digits_lt_base (by norm_num) hd)

/-- `natDec n` is never empty. -/
theorem natDec_ne_nil (n : Nat) : natDec n ≠ [] := by
  rcases Nat.eq_zero_or_pos n with h | h
  · subst h; simp [natDec]
  · rw [natDec_eq_digits h]
    simp [Nat.digits_ne_nil_iff_ne_zero, Nat.pos_iff_ne_zero.mp h]

/-- Every character of `intDec n` is an ASCII digit or the minus sign. -/
theorem intDec_all (n : Int) : ∀ c ∈ intDec n, c.isDigit = true ∨ c = '-' := by
  intro c hc
  rw [intDec] at hc
  split at hc
  · rcases List.mem_cons.mp hc with h | h
    · exact Or.inr h
    · exact Or.inl (natDec_all_digit _ c h)
  · exact Or.inl (natDec_all_digit _ c hc)

/-- Numeric value of a digit string (the accumulating fold `int` performs). -/
def digitsVal (s : Str) : Nat :=
  s.foldl (fun a c => 10 * a + (c.toNat - 48)) 0

theorem foldl_digits_reverse (L : List Nat) (acc : Nat) :
    List.foldl (fun a d => 10 * a + d) acc L.reverse =
      acc * 10 ^ L.length + Nat.ofDigits 10 L := by
  induction L generalizing acc with
  | nil => simp
  | cons d L ih =>
    simp only [List.reverse_cons, List.foldl_append, List.foldl_cons, List.foldl_nil,
      List.length_cons, Nat.ofDigits_cons, ih]
    ring

theorem foldl_digitChar_toNat (L : List Nat) (hL : ∀ d ∈ L, d < 10) :
    ∀ a : Nat,
      List.foldl (fun a d => 10 * a + ((digitChar d).toNat - 48)) a L =
      List.foldl (fun a d => 10 * a + d) a L := by
  induction L with
  | nil => intro a; rfl
  | cons d L ih =>
    intro a
    simp only [List.foldl_cons]
    rw [digitChar_toNat (hL d (List.mem_cons_self d L)), Nat.add_sub_cancel_left]
    exact ih (fun x hx => hL x (List.mem_cons_of_mem d hx)) _

/-- Parsing the decimal rendering of a natural number recovers it. -/
theorem digitsVal_natDec (n : Nat) : digitsVal (natDec n) = n := by
  rcases Nat.eq_zero_or_pos n with h | h
  · subst h; decide
  · rw [natDec_eq_digits h, digitsVal, List.foldl_map]
    rw [foldl_digitChar_toNat _
      (fun d hd => Nat.digits_lt_base (by norm_num) (List.mem_reverse.mp hd))]
    rw [foldl_digits_reverse]
    simp [Nat.ofDigits_digits]

/-! ## Python `int(str)` parsing

`int` on a string strips surrounding whitespace, allows a single leading
`+` or `-`, then base-10 digits with single underscores permitted between
digits.  (CPython also accepts non-ASCII decimal digits and Unicode
whitespace; as with the regex classes, the model covers the ASCII range, on
which every theorem below operates.) -/

/-- Digit/underscore scanner: `pd` records whether the previous character was
a digit (an underscore is legal only after a digit, and the string may not
end in an underscore). -/
def goDigits : Nat → Bool → Str → Option Nat
  | acc, pd, [] => if pd then some acc else none
  | acc, pd, c :: r =>
    if c.isDigit then goDigits (10 * acc + (c.toNat - 48)) true r
    else if c = '_' && pd then goDigits acc false r
    else none

/-- Strip leading and trailing whitespace, as `int` does. -/
def trimWs (s : Str) : Str :=
  (((s.dropWhile pySpaceChar).reverse).dropWhile pySpaceChar).reverse

/-- Sign handling of `int` after whitespace stripping. -/
def pyIntHead : Str → Option Int
  | [] => none
  | c :: r =>
    if c = '-' then (goDigits 0 false r).map (fun m => -(Int.ofNat m))
    else if c = '+' then (goDigits 0 false r).map (fun m => Int.ofNat m)
    else (goDigits 0 false (c :: r)).map (fun m => Int.ofNat m)

/-- Embedding of Python `int(v)` on a string: `some n` on success, `none`
when `int` raises `ValueError`. -/
def pyIntOfStr (s : Str) : Option Int := pyIntHead (trimWs s)

theorem goDigits_all_digit (s : Str) :
    ∀ acc, (∀ c ∈ s, c.isDigit = true) →
      goDigits acc true s = some (s.foldl (fun a c => 10 * a + (c.toNat - 48)) acc) := by
  induction s with
  | nil => intro acc _; simp [goDigits]
  | cons c r ih =>
    intro acc h
    rw [goDigits, if_pos (h c (List.mem_cons_self c r))]
    rw [ih _ (fun x hx => h x (List.mem_cons_of_mem c hx))]
    simp

theorem goDigits_start (c : Char) (r : Str)
    (h : ∀ x ∈ c :: r, x.isDigit = true) :
    goDigits 0 false (c :: r) = some (digitsVal (c :: r)) := by
  rw [goDigits, if_pos (h c (List.mem_cons_self c r))]
  rw [goDigits_all_digit r _ (fun x hx => h x (List.mem_cons_of_mem c hx))]
  simp [digitsVal]

theorem trimWs_of_no_space {s : Str} (h : ∀ c ∈ s, pySpaceChar c = false) :
    trimWs s = s := by
  have h1 : s.dropWhile pySpaceChar = s := by
    cases s with
    | nil => rfl
    | cons c r => rw [List.dropWhile_cons_of_neg]; simp [h c (List.mem_cons_self c r)]
  rw [trimWs, h1]
  have h2 : s.reverse.dropWhile pySpaceChar = s.reverse := by
    cases hrev : s.reverse with
    | nil => rfl
    | cons c r =>
      rw [List.dropWhile_cons_of_neg]
      have : c ∈ s := by
        rw [← List.mem_reverse, hrev]; exact List.mem_cons_self c r
      simp [h c this]
  rw [h2, List.reverse_reverse]

/-- Bridge from `Char.isDigit` to bounds on the code point. -/
theorem char_isDigit_toNat {c : Char} (h : c.isDigit = true) :
    48 ≤ c.toNat ∧ c.toNat ≤ 57 := by
  simp [Char.isDigit, Char.le_def, UInt32.le_def, BitVec.le_def] at h
  exact h

/-- Characters with different code points are different. -/
theorem char_ne_of_toNat_ne {c d : Char} (h : c.toNat ≠ d.toNat) : c ≠ d := by
  intro hc; exact h (by rw [hc])

theorem digit_not_space {c : Char} (h : c.isDigit = true) : pySpaceChar c = false := by
  have hb := char_isDigit_toNat h
  simp [pySpaceChar]
  omega

theorem intDec_no_space (n : Int) : ∀ c ∈ intDec n, pySpaceChar c = false := by
  intro c hc
  rcases intDec_all n c hc with h | h
  · exact digit_not_space h
  · subst h; decide

/-- Round trip of the decimal codec through Python `int`. -/
theorem pyIntOfStr_intDec (n : Int) : pyIntOfStr (intDec n) = some n := by
  rw [pyIntOfStr, trimWs_of_no_space (intDec_no_space n)]
  by_cases hneg : n < 0
  · rw [intDec, if_pos hneg]
    have hne := natDec_ne_nil n.natAbs
    have hall := natDec_all_digit n.natAbs
    rcases hd : natDec n.natAbs with _ | ⟨c, r⟩
    · exact absurd hd hne
    · rw [pyIntHead, if_pos rfl, goDigits_start c r (by rw [← hd]; exact hall)]
      rw [← hd, digitsVal_natDec]
      simp only [Option.map_some']
      congr 1
      rw [Int.ofNat_eq_natCast]
      omega
  · rw [intDec, if_neg hneg]
    have hne := natDec_ne_nil n.toNat
    have hall := natDec_all_digit n.toNat
    rcases hd : natDec n.toNat with _ | ⟨c, r⟩
    · exact absurd hd hne
    · have hcd : c.isDigit = true := by
        apply hall; rw [hd]; exact List.mem_cons_self c r
      have hb := char_isDigit_toNat hcd
      have hminus : ('-').toNat = 45 := rfl
      have hplus : ('+').toNat = 43 := rfl
      rw [pyIntHead,
        if_neg (char_ne_of_toNat_ne (by rw [hminus]; omega)),
        if_neg (char_ne_of_toNat_ne (by rw [hplus]; omega)),
        goDigits_start c r (by rw [← hd]; exact hall)]
      rw [← hd, digitsVal_natDec]
      simp only [Option.map_some']
      congr 1
      rw [Int.ofNat_eq_natCast]
      omega

/-! ## General list lemmas used throughout -/

theorem takeWhile_ext {α : Type} {p q : α → Bool} :
    ∀ {l : List α}, (∀ a ∈ l, p a = q a) → l.takeWhile p = l.takeWhile q := by
  intro l
  induction l with
  | nil => intro _; rfl
  | cons x xs ih =>
    intro h
    rw [List.takeWhile_cons, List.takeWhile_cons, h x (List.mem_cons_self x xs)]
    split
    · rw [ih (fun a ha => h a (List.mem_cons_of_mem x ha))]
    · rfl

theorem dropWhile_ext {α : Type} {p q : α → Bool} :
    ∀ {l : List α}, (∀ a ∈ l, p a = q a) → l.dropWhile p = l.dropWhile q := by
  intro l
  induction l with
  | nil => intro _; rfl
  | cons x xs ih =>
    intro h
    rw [List.dropWhile_cons, List.dropWhile_cons, h x (List.mem_cons_self x xs)]
    split
    · exact ih (fun a ha => h a (List.mem_cons_of_mem x ha))
    · rfl

theorem takeWhile_append_all {α : Type} {p : α → Bool} :
    ∀ {a : List α} (b : List α), (∀ x ∈ a, p x = true) →
      (a ++ b).takeWhile p = a ++ b.takeWhile p := by
  intro a
  induction a with
  | nil => intro b _; rfl
  | cons x xs ih =>
    intro b h
    rw [List.cons_append, List.takeWhile_cons_of_pos (h x (List.mem_cons_self x xs))]
    rw [ih b (fun y hy => h y (List.mem_cons_of_mem x hy)), List.cons_append]

theorem dropWhile_append_all {α : Type} {p : α → Bool} :
    ∀ {a : List α} (b : List α), (∀ x ∈ a, p x = true) →
      (a ++ b).dropWhile p = b.dropWhile p := by
  intro a
  induction a with
  | nil => intro b _; rfl
  | cons x xs ih =>
    intro b h
    rw [List.cons_append, List.dropWhile_cons_of_pos (h x (List.mem_cons_self x xs))]
    exact ih b (fun y hy => h y (List.mem_cons_of_mem x hy))

/-- `takeWhile` over an append whose junction element fails the predicate
only sees the first part. -/
theorem takeWhile_append_stop {α : Type} {p : α → Bool} {c : α} (hc : p c = false) :
    ∀ (a t : List α), (a ++ c :: t).takeWhile p = a.takeWhile p := by
  intro a
  induction a with
  | nil => intro t; rw [List.nil_append, List.takeWhile_cons_of_neg (by simp [hc]), List.takeWhile_nil]
  | cons x xs ih =>
    intro t
    rw [List.cons_append, List.takeWhile_cons, List.takeWhile_cons]
    split
    · rw [ih t]
    · rfl

/-- `dropWhile` over an append whose junction element fails the predicate
keeps the junction and tail intact. -/
theorem dropWhile_append_stop {α : Type} {p : α → Bool} {c : α} (hc : p c = false) :
    ∀ (a t : List α), (a ++ c :: t).dropWhile p = a.dropWhile p ++ c :: t := by
  intro a
  induction a with
  | nil =>
    intro t
    rw [List.nil_append, List.dropWhile_cons_of_neg (by simp [hc]), List.dropWhile_nil,
      List.nil_append]
  | cons x xs ih =>
    intro t
    rw [List.cons_append, List.dropWhile_cons, List.dropWhile_cons]
    split
    · exact ih t
    · rw [List.cons_append]

theorem mem_of_mem_takeWhile {α : Type} {p : α → Bool} :
    ∀ {l : List α} {a : α}, a ∈ l.takeWhile p → a ∈ l := by
  intro l
  induction l with
  | nil => intro a h; simp [List.takeWhile_nil] at h
  | cons x xs ih =>
    intro a h
    rw [List.takeWhile_cons] at h
    split at h
    · rcases List.mem_cons.mp h with h | h
      · exact h ▸ List.mem_cons_self x xs
      · exact List.mem_cons_of_mem x (ih h)
    · simp at h

theorem mem_of_mem_dropWhile {α : Type} {p : α → Bool} :
    ∀ {l : List α} {a : α}, a ∈ l.dropWhile p → a ∈ l := by
  intro l
  induction l with
  | nil => intro a h; simp [List.dropWhile_nil] at h
  | cons x xs ih =>
    intro a h
    rw [List.dropWhile_cons] at h
    split at h
    · exact List.mem_cons_of_mem x (ih h)
    · exact h

theorem pred_of_mem_takeWhile {α : Type} {p : α → Bool} :
    ∀ {l : List α} {a : α}, a ∈ l.takeWhile p → p a = true := by
  intro l
  induction l with
  | nil => intro a h; simp [List.takeWhile_nil] at h
  | cons x xs ih =>
    intro a h
    rw [List.takeWhile_cons] at h
    split at h
    · rcases List.mem_cons.mp h with h | h
      · subst h; assumption
      · exact ih h
    · simp at h

/-! ## Equivalence of the regex matchers for C2 -/

theorem specSchemeChar_not_space {c : Char} (h : specSchemeChar c = true) :
    pySpaceChar c = false := by
  simp only [specSchemeChar, Bool.or_eq_true, Bool.and_eq_true, decide_eq_true_eq] at h
  simp only [pySpaceChar, Bool.or_eq_false_iff, Bool.and_eq_false_iff, decide_eq_false_iff_not]
  omega

theorem urlReClass_not_space {c : Char} (h : urlReClass c = true) :
    pySpaceChar c = false := by
  simp only [urlReClass, pyWordChar, latin1Word, Bool.or_eq_true, Bool.and_eq_true,
    decide_eq_true_eq] at h
  simp only [pySpaceChar, Bool.or_eq_false_iff, Bool.and_eq_false_iff, decide_eq_false_iff_not]
  omega

/-- On ASCII characters, the source's class `[\w\d\+]` and the claim's class
`[A-Za-z0-9_+]` agree (they differ only on Latin-1 word characters). -/
theorem class_agree_ascii {c : Char} (h : c.toNat ≤ 127) :
    urlReClass c = specSchemeChar c := by
  simp only [urlReClass, pyWordChar, latin1Word, specSchemeChar]
  rw [Bool.eq_iff_iff]
  simp only [Bool.or_eq_true, Bool.and_eq_true, decide_eq_true_eq]
  omega

theorem startsCSS_iff (x : Str) :
    startsCSS x = true ↔ ∃ rest, x = ':' :: '/' :: '/' :: rest := by
  constructor
  · intro h
    rcases x with _ | ⟨c1, _ | ⟨c2, _ | ⟨c3, r⟩⟩⟩
    · simp [startsCSS] at h
    · simp [startsCSS] at h
    · simp [startsCSS] at h
    · simp only [startsCSS, Bool.and_eq_true, decide_eq_true_eq] at h
      obtain ⟨⟨h1, h2⟩, h3⟩ := h
      subst h1; subst h2; subst h3
      exact ⟨r, rfl⟩
  · rintro ⟨rest, rfl⟩
    rfl

/-- The executable matcher for the claim's pattern agrees with its
declarative reading. -/
theorem specMatch_iff_SpecPattern (s : Str) : specMatch s = true ↔ SpecPattern s := by
  constructor
  · intro h
    rw [specMatch, Bool.and_eq_true] at h
    obtain ⟨hk, hcss⟩ := h
    obtain ⟨rest, hrest⟩ := (startsCSS_iff _).mp hcss
    refine ⟨s.takeWhile pySpaceChar, (s.dropWhile pySpaceChar).takeWhile specSchemeChar,
      rest, ?_, ?_, ?_, ?_⟩
    · conv_lhs => rw [← List.takeWhile_append_dropWhile (p := pySpaceChar) (l := s)]
      rw [List.append_assoc]
      congr 1
      conv_lhs =>
        rw [← List.takeWhile_append_dropWhile (p := specSchemeChar)
          (l := s.dropWhile pySpaceChar)]
      rw [hrest]
    · intro c hc; exact pred_of_mem_takeWhile hc
    · intro hempty
      rw [hempty] at hk
      simp at hk
    · intro c hc; exact pred_of_mem_takeWhile hc
  · rintro ⟨w, k, rest, rfl, hw, hk, hkc⟩
    rcases k with _ | ⟨c0, k'⟩
    · exact absurd rfl hk
    rw [specMatch]
    have hdw : ((w ++ (c0 :: k') ++ ':' :: '/' :: '/' :: rest).dropWhile pySpaceChar)
        = (c0 :: k') ++ ':' :: '/' :: '/' :: rest := by
      rw [List.append_assoc]
      rw [dropWhile_append_all _ hw]
      rw [List.cons_append, List.dropWhile_cons_of_neg]
      simp [specSchemeChar_not_space (hkc c0 (List.mem_cons_self c0 k'))]
    rw [hdw]
    have htw : ((c0 :: k') ++ ':' :: '/' :: '/' :: rest).takeWhile specSchemeChar
        = c0 :: k' := by
      rw [takeWhile_append_all _ hkc, List.takeWhile_cons_of_neg (by decide), List.append_nil]
    have hdw2 : ((c0 :: k') ++ ':' :: '/' :: '/' :: rest).dropWhile specSchemeChar
        = ':' :: '/' :: '/' :: rest := by
      rw [dropWhile_append_all _ hkc, List.dropWhile_cons_of_neg (by decide)]
    rw [htw, hdw2]
    rfl

/-- On ASCII strings the two matchers coincide. -/
theorem matchUrlRe_eq_specMatch_ascii {s : Str} (h : ∀ c ∈ s, c.toNat ≤ 127) :
    matchUrlRe s = specMatch s := by
  rw [matchUrlRe, specMatch]
  have hsub : ∀ c ∈ s.dropWhile pySpaceChar, urlReClass c = specSchemeChar c :=
    fun c hc => class_agree_ascii (h c (mem_of_mem_dropWhile hc))
  rw [takeWhile_ext hsub, dropWhile_ext hsub]

/-! ## `urllib.parse.urlsplit`

Embedded from CPython 3.11 `Lib/urllib/parse.py`:

1. strip WHATWG C0-control-or-space characters (code points ≤ 0x20) from the
   left of the url;
2. remove every tab, carriage return and newline;
3. split off a scheme when the url has a `:` at position `i > 0`, its first
   character is an ASCII letter, and all of `url[:i]` consists of scheme
   characters (ASCII letters, digits, `+`, `-`, `.`); the scheme is
   lower-cased;
4. when the remainder starts with `//`, the netloc runs to the first `/`,
   `?` or `#`; raise `ValueError("Invalid IPv6 URL")` when the netloc
   contains `[` without `]` or vice versa;
5. split off the fragment at the first `#` of the remainder;
6. split off the query at the first `?` of what precedes the fragment.

The `_checknetloc` NFKC check and 3.11's `_check_bracketed_host` are
omitted as noted in the header. -/

deriving instance DecidableEq for Except

/-- Python exceptions that the modelled functions can raise. -/
inductive PyErr where
  | invalidIPv6Url      -- `ValueError('Invalid IPv6 URL')` raised inside `urlsplit`
  | unsupportedScheme   -- `ValueError('Only file URIs currently supported. ...')`
  | unsupportedNetloc   -- `ValueError('Only know how to use `netloc` urls on Windows')`
  | badUrl              -- `OSError('Bad URL: ...')` from `nturl2path.url2pathname`
  | indexOutOfRange     -- `IndexError` from `comp[0][-1]` on an empty component
  | relativeBase        -- `ValueError('Expect base to be an absolute path')`
  | uriFromRelativePath -- `ValueError("relative path can't be expressed as a file URI")`
deriving DecidableEq, Repr

/-- Scheme characters: ASCII letters, digits, and `+`, `-`, `.`. -/
def schemeChar (c : Char) : Bool :=
  (0x41 ≤ c.toNat && c.toNat ≤ 0x5A) || (0x61 ≤ c.toNat && c.toNat ≤ 0x7A) ||
  (0x30 ≤ c.toNat && c.toNat ≤ 0x39) || c = '+' || c = '-' || c = '.'

/-- ASCII letter test (`url[0].isascii() and url[0].isalpha()`). -/
def asciiAlpha (c : Char) : Bool :=
  (0x41 ≤ c.toNat && c.toNat ≤ 0x5A) || (0x61 ≤ c.toNat && c.toNat ≤ 0x7A)

/-- Lower-case an ASCII letter (`str.lower` restricted to the scheme
characters it is applied to, which are all ASCII). -/
def asciiLower (c : Char) : Char :=
  if 0x41 ≤ c.toNat && c.toNat ≤ 0x5A then Char.ofNat (c.toNat + 32) else c

/-- Scan for the scheme: consume scheme characters until the first `:`.
Returns the (lower-cased) scheme and the remainder after the colon, or
`none` when there is no well-formed scheme prefix (in which case `urlsplit`
proceeds with the whole url and an empty scheme).  `acc` holds the scanned
characters in reverse. -/
def schemeGo (acc : Str) : Str → Option (Str × Str)
  | [] => none
  | c :: r =>
    if c = ':' then
      if acc.isEmpty then none else some ((acc.reverse).map asciiLower, r)
    else if schemeChar c then schemeGo (c :: acc) r
    else none

/-- Scheme extraction: requires the first character to be an ASCII letter
(hence the colon is at position `> 0`). -/
def splitScheme (s : Str) : Option (Str × Str) :=
  match s with
  | [] => none
  | c :: _ => if asciiAlpha c then schemeGo [] s else none

/-- WHATWG C0-control-or-space left strip. -/
def lstripC0 (s : Str) : Str := s.dropWhile (fun c => c.toNat ≤ 0x20)

/-- Removal of `\t`, `\r`, `\n` (`_UNSAFE_URL_BYTES_TO_REMOVE`). -/
def stripUnsafe (s : Str) : Str :=
  s.filter (fun c => !(c = '\t' || c = '\n' || c = '\r'))

/-- Netloc delimiters, per `_splitnetloc`. -/
def netlocDelim (c : Char) : Bool := c = '/' || c = '?' || c = '#'

/-- The `Invalid IPv6 URL` condition: `[` and `]` membership differ. -/
def bracketProblem (netloc : Str) : Bool :=
  netloc.contains '[' != netloc.contains ']'

/-- `s.split(c, 1)` when `c` occurs, else `(s, '')`; the second component is
what follows the first occurrence. -/
def splitFirst (c : Char) (s : Str) : Str × Str :=
  (s.takeWhile (fun x => !(x = c)), (s.dropWhile (fun x => !(x = c))).tail)

/-- Parse result of `urlsplit` (the `params` field of `urlparse` is unused
by the code under test). -/
structure SplitResult where
  scheme : Str
  netloc : Str
  path : Str
  query : Str
  fragment : Str
deriving DecidableEq, Repr

/-- Does the remainder after the scheme start with `//` (netloc present)? -/
def startsDoubleSlash : Str → Bool
  | c1 :: c2 :: _ => c1 = '/' && c2 = '/'
  | _ => false

/-- Stages 4-6 of `urlsplit` on the remainder after scheme extraction. -/
def urlsplitRest (sch u2 : Str) : Except PyErr SplitResult :=
  if startsDoubleSlash u2 then
    let body := u2.drop 2
    let netloc := body.takeWhile (fun c => !netlocDelim c)
    let rest := body.dropWhile (fun c => !netlocDelim c)
    if bracketProblem netloc then .error .invalidIPv6Url
    else
      let fr := splitFirst '#' rest
      let pq := splitFirst '?' fr.1
      .ok ⟨sch, netloc, pq.1, pq.2, fr.2⟩
  else
    let fr := splitFirst '#' u2
    let pq := splitFirst '?' fr.1
    .ok ⟨sch, [], pq.1, pq.2, fr.2⟩

/-- Embedding of `urllib.parse.urlsplit` (and of `urlparse` as used by the
code, which never reads `params`). -/
def urlsplit (url0 : Str) : Except PyErr SplitResult :=
  let u1 := stripUnsafe (lstripC0 url0)
  match splitScheme u1 with
  | some (s, r) => urlsplitRest s r
  | none => urlsplitRest [] u1

/-! ### How appending `#fragment` to a fragment-free url moves through
`urlsplit`

These lemmas justify the round-trip law of the part codec: appending
`'#' :: t` to a url that contains no `#` leaves every component of the
parse unchanged except the fragment, which becomes exactly `t`. -/

theorem takeWhile_all {α : Type} {p : α → Bool} {a : List α}
    (h : ∀ x ∈ a, p x = true) : a.takeWhile p = a := by
  have := takeWhile_append_all (p := p) (a := a) [] h
  simpa using this

theorem dropWhile_all {α : Type} {p : α → Bool} {a : List α}
    (h : ∀ x ∈ a, p x = true) : a.dropWhile p = [] := by
  have := dropWhile_append_all (p := p) (a := a) [] h
  simpa using this

theorem splitFirst_of_not_mem {c : Char} {a : Str} (hc : c ∉ a) :
    splitFirst c a = (a, []) := by
  have hall : ∀ x ∈ a, (!(x = c)) = true := by
    intro x hx
    simp only [Bool.not_eq_true', decide_eq_false_iff_not]
    intro hxc; exact hc (hxc ▸ hx)
  rw [splitFirst, takeWhile_all hall, dropWhile_all hall]
  rfl

theorem splitFirst_append {c : Char} {a : Str} (t : Str) (hc : c ∉ a) :
    splitFirst c (a ++ c :: t) = (a, t) := by
  have hall : ∀ x ∈ a, (!(x = c)) = true := by
    intro x hx
    simp only [Bool.not_eq_true', decide_eq_false_iff_not]
    intro hxc; exact hc (hxc ▸ hx)
  rw [splitFirst, takeWhile_append_stop (by simp) a t,
    dropWhile_append_stop (by simp) a t, takeWhile_all hall, dropWhile_all hall]
  simp

theorem startsDoubleSlash_append (u2 : Str) {c0 : Char} (w : Str)
    (hc0 : ¬c0 = '/') :
    startsDoubleSlash (u2 ++ c0 :: w) = startsDoubleSlash u2 := by
  rcases u2 with _ | ⟨c1, _ | ⟨c2, rest⟩⟩
  · rcases w with _ | ⟨d, w⟩ <;> simp [startsDoubleSlash, hc0]
  · simp [startsDoubleSlash, hc0]
  · simp [startsDoubleSlash]

theorem schemeGo_append {c0 : Char} (w : Str) (hc1 : ¬c0 = ':')
    (hc2 : schemeChar c0 = false) :
    ∀ (a acc : Str),
      schemeGo acc (a ++ c0 :: w) =
        (schemeGo acc a).map (fun p => (p.1, p.2 ++ c0 :: w)) := by
  intro a
  induction a with
  | nil =>
    intro acc
    simp [schemeGo, hc1, hc2]
  | cons c a ih =>
    intro acc
    rw [List.cons_append, schemeGo, schemeGo]
    by_cases h1 : c = ':'
    · rw [if_pos h1, if_pos h1]
      by_cases h2 : acc.isEmpty
      · simp [h2]
      · simp [h2]
    · rw [if_neg h1, if_neg h1]
      by_cases h2 : schemeChar c
      · rw [if_pos h2, if_pos h2, ih]
      · simp [h2]

theorem schemeGo_rest_mem :
    ∀ (a acc sch r : Str), schemeGo acc a = some (sch, r) → ∀ c ∈ r, c ∈ a := by
  intro a
  induction a with
  | nil => intro acc sch r h; simp [schemeGo] at h
  | cons x a ih =>
    intro acc sch r h c hc
    rw [schemeGo] at h
    by_cases h1 : x = ':'
    · rw [if_pos h1] at h
      by_cases h2 : acc.isEmpty
      · simp [h2] at h
      · rw [if_neg h2] at h
        have h4 : a = r := congrArg Prod.snd (Option.some.inj h)
        rw [← h4] at hc
        exact List.mem_cons_of_mem x hc
    · rw [if_neg h1] at h
      by_cases h2 : schemeChar x
      · rw [if_pos h2] at h
        exact List.mem_cons_of_mem x (ih _ _ _ h c hc)
      · simp [h2] at h

theorem splitScheme_append {c0 : Char} (w : Str) (hc1 : ¬c0 = ':')
    (hc2 : schemeChar c0 = false) (hc3 : asciiAlpha c0 = false) (a : Str) :
    splitScheme (a ++ c0 :: w) =
      (splitScheme a).map (fun p => (p.1, p.2 ++ c0 :: w)) := by
  rcases a with _ | ⟨c, a⟩
  · simp [splitScheme, hc3]
  · rw [List.cons_append, splitScheme, splitScheme]
    by_cases h : asciiAlpha c
    · rw [if_pos h, if_pos h, ← List.cons_append, schemeGo_append w hc1 hc2]
    · simp [h]

theorem splitScheme_rest_mem {a sch r : Str} (h : splitScheme a = some (sch, r)) :
    ∀ c ∈ r, c ∈ a := by
  rcases a with _ | ⟨c, a⟩
  · simp [splitScheme] at h
  · rw [splitScheme] at h
    by_cases hx : asciiAlpha c
    · rw [if_pos hx] at h
      exact schemeGo_rest_mem _ _ _ _ h
    · simp [hx] at h

theorem urlsplitRest_append (sch u2 t : Str) (r : SplitResult)
    (hu2 : '#' ∉ u2) (h : urlsplitRest sch u2 = .ok r) :
    urlsplitRest sch (u2 ++ '#' :: t) = .ok ⟨r.scheme, r.netloc, r.path, r.query, t⟩ := by
  by_cases hds : startsDoubleSlash u2 = true
  · rcases u2 with _ | ⟨c1, _ | ⟨c2, body⟩⟩
    · simp [startsDoubleSlash] at hds
    · simp [startsDoubleSlash] at hds
    · simp only [startsDoubleSlash, Bool.and_eq_true, decide_eq_true_eq] at hds
      obtain ⟨rfl, rfl⟩ := hds
      have hbody : '#' ∉ body := fun hm =>
        hu2 (List.mem_cons_of_mem _ (List.mem_cons_of_mem _ hm))
      rw [urlsplitRest] at h
      rw [if_pos (by rfl)] at h
      simp only [List.drop_succ_cons, List.drop_zero] at h
      rw [urlsplitRest, List.cons_append, List.cons_append,
        if_pos (by rfl)]
      simp only [List.drop_succ_cons, List.drop_zero]
      rw [takeWhile_append_stop (by decide) body t,
        dropWhile_append_stop (by decide) body t]
      have hrest : '#' ∉ body.dropWhile (fun c => !netlocDelim c) :=
        fun hm => hbody (mem_of_mem_dropWhile hm)
      by_cases hbp : bracketProblem (body.takeWhile (fun c => !netlocDelim c))
      · rw [if_pos hbp] at h; cases h
      · rw [if_neg hbp] at h
        rw [if_neg hbp]
        rw [splitFirst_append t hrest]
        rw [splitFirst_of_not_mem hrest] at h
        rcases Except.ok.inj h with rfl
        rfl
  · have hds2 : startsDoubleSlash (u2 ++ '#' :: t) = false := by
      rw [startsDoubleSlash_append u2 t (by decide)]
      exact Bool.not_eq_true _ ▸ (by simpa using hds)
    rw [urlsplitRest, if_neg hds] at h
    rw [urlsplitRest, if_neg (by simp [hds2])]
    rw [splitFirst_append t hu2]
    rw [splitFirst_of_not_mem hu2] at h
    rcases Except.ok.inj h with rfl
    rfl

/-- Characters that survive the `\t`/`\n`/`\r` filter. -/
theorem mem_stripUnsafe {c : Char} {s : Str} (h : c ∈ stripUnsafe s) : c ∈ s :=
  (List.mem_filter.mp h).1

/-- Appending a fragment to a fragment-free url: every component of the
parse is unchanged and the fragment becomes exactly the appended text.
`t` must be free of `\t`/`\n`/`\r` (which `urlsplit` removes) — expressed
as `stripUnsafe t = t`. -/
theorem urlsplit_append_fragment (u t : Str) (r : SplitResult)
    (hu : '#' ∉ u) (ht : stripUnsafe t = t) (h : urlsplit u = .ok r) :
    urlsplit (u ++ '#' :: t) = .ok ⟨r.scheme, r.netloc, r.path, r.query, t⟩ := by
  have h1 : lstripC0 (u ++ '#' :: t) = lstripC0 u ++ '#' :: t :=
    dropWhile_append_stop (by decide) u t
  have ht2 : t.filter (fun c => !(c = '\t' || c = '\n' || c = '\r')) = t := ht
  have h2 : stripUnsafe (lstripC0 u ++ '#' :: t) =
      stripUnsafe (lstripC0 u) ++ '#' :: t := by
    simp only [stripUnsafe, List.filter_append, List.filter_cons]
    rw [if_pos (by decide), ht2]
  have hu1 : '#' ∉ stripUnsafe (lstripC0 u) := by
    intro hm
    exact hu (mem_of_mem_dropWhile (mem_stripUnsafe hm))
  rw [urlsplit] at h
  rw [urlsplit, h1, h2]
  rw [splitScheme_append t (by decide) (by decide) (by decide)]
  cases hs : splitScheme (stripUnsafe (lstripC0 u)) with
  | none =>
    rw [hs] at h
    simp only [Option.map_none']
    exact urlsplitRest_append _ _ t r hu1 h
  | some p =>
    rw [hs] at h
    simp only [Option.map_some']
    have hrm : '#' ∉ p.2 := fun hm => hu1 (splitScheme_rest_mem hs '#' hm)
    exact urlsplitRest_append _ _ t r hrm h

/-! ## `urllib.parse.unquote` and `parse_qsl`

`unquote` decodes `%XX` hex escapes to bytes (a `%` not followed by two hex
digits stays literal) and decodes the byte runs as UTF-8 with
`errors='replace'`. -/

/-- Hexadecimal digit test. -/
def isHexDigit (c : Char) : Bool :=
  (0x30 ≤ c.toNat && c.toNat ≤ 0x39) || (0x61 ≤ c.toNat && c.toNat ≤ 0x66) ||
  (0x41 ≤ c.toNat && c.toNat ≤ 0x46)

/-- Value of a hexadecimal digit. -/
def hexVal (c : Char) : Nat :=
  if 0x30 ≤ c.toNat && c.toNat ≤ 0x39 then c.toNat - 0x30
  else if 0x61 ≤ c.toNat then c.toNat - 0x57
  else c.toNat - 0x37

/-- Scanner token: a decoded byte from `%XX`, or a literal character. -/
inductive UQTok where
  | byte (b : Nat)
  | chr (c : Char)
deriving DecidableEq, Repr

/-- Scan a percent-encoded string into bytes and literal characters. -/
def unquoteScan : Str → List UQTok
  | [] => []
  | '%' :: h1 :: h2 :: r2 =>
    if isHexDigit h1 && isHexDigit h2 then
      .byte (16 * hexVal h1 + hexVal h2) :: unquoteScan r2
    else .chr '%' :: unquoteScan (h1 :: h2 :: r2)
  | c :: r => .chr c :: unquoteScan r

/-- The Unicode replacement character U+FFFD. -/
def replChar : Char := Char.ofNat 0xFFFD

/-- Continuation byte test (0x80-0xBF). -/
def isCont (x : Nat) : Bool := 0x80 ≤ x && x ≤ 0xBF

/-- Valid lead byte of a two-byte sequence (0xC0/0xC1 are overlong). -/
def lead2 (b : Nat) : Bool := 0xC2 ≤ b && b ≤ 0xDF

/-- Lead byte of a three-byte sequence. -/
def lead3 (b : Nat) : Bool := 0xE0 ≤ b && b ≤ 0xEF

/-- Lead byte of a four-byte sequence (above 0xF4 exceeds U+10FFFF). -/
def lead4 (b : Nat) : Bool := 0xF0 ≤ b && b ≤ 0xF4

/-- First continuation of a three-byte sequence, excluding overlong (E0)
and surrogate (ED) ranges. -/
def cont3ok (b b2 : Nat) : Bool :=
  isCont b2 && !(b = 0xE0 && b2 < 0xA0) && !(b = 0xED && 0xA0 ≤ b2)

/-- First continuation of a four-byte sequence, excluding overlong (F0)
and beyond-U+10FFFF (F4) ranges. -/
def cont4ok (b b2 : Nat) : Bool :=
  isCont b2 && !(b = 0xF0 && b2 < 0x90) && !(b = 0xF4 && 0x8F < b2)

/-- Scalar of a two-byte sequence. -/
def dec2 (b b2 : Nat) : Char := Char.ofNat ((b - 0xC0) * 0x40 + (b2 - 0x80))

/-- Scalar of a three-byte sequence. -/
def dec3 (b b2 b3 : Nat) : Char :=
  Char.ofNat ((b - 0xE0) * 0x1000 + (b2 - 0x80) * 0x40 + (b3 - 0x80))

/-- Scalar of a four-byte sequence. -/
def dec4 (b b2 b3 b4 : Nat) : Char :=
  Char.ofNat ((b - 0xF0) * 0x40000 + (b2 - 0x80) * 0x1000 +
    (b3 - 0x80) * 0x40 + (b4 - 0x80))

/-- UTF-8 decoding with `errors='replace'`: well-formed 1-4 byte sequences
decode to their scalar; a malformed or truncated sequence contributes one
U+FFFD for its maximal valid prefix and decoding resumes at the offending
byte (CPython's behaviour for `errors='replace'`). -/
def utf8Decode : List Nat → Str
  | [] => []
  | [b] => if b < 0x80 then [Char.ofNat b] else [replChar]
  | [b, b2] =>
    if b < 0x80 then Char.ofNat b :: utf8Decode [b2]
    else if lead2 b then
      (if isCont b2 then [dec2 b b2] else replChar :: utf8Decode [b2])
    else if lead3 b then
      (if cont3ok b b2 then [replChar] else replChar :: utf8Decode [b2])
    else if lead4 b then
      (if cont4ok b b2 then [replChar] else replChar :: utf8Decode [b2])
    else replChar :: utf8Decode [b2]
  | [b, b2, b3] =>
    if b < 0x80 then Char.ofNat b :: utf8Decode [b2, b3]
    else if lead2 b then
      (if isCont b2 then dec2 b b2 :: utf8Decode [b3]
       else replChar :: utf8Decode [b2, b3])
    else if lead3 b then
      (if cont3ok b b2 then
        (if isCont b3 then [dec3 b b2 b3] else replChar :: utf8Decode [b3])
       else replChar :: utf8Decode [b2, b3])
    else if lead4 b then
      (if cont4ok b b2 then
        (if isCont b3 then [replChar] else replChar :: utf8Decode [b3])
       else replChar :: utf8Decode [b2, b3])
    else replChar :: utf8Decode [b2, b3]
  | b :: b2 :: b3 :: b4 :: r4 =>
    if b < 0x80 then Char.ofNat b :: utf8Decode (b2 :: b3 :: b4 :: r4)
    else if lead2 b then
      (if isCont b2 then dec2 b b2 :: utf8Decode (b3 :: b4 :: r4)
       else replChar :: utf8Decode (b2 :: b3 :: b4 :: r4))
    else if lead3 b then
      (if cont3ok b b2 then
        (if isCont b3 then dec3 b b2 b3 :: utf8Decode (b4 :: r4)
         else replChar :: utf8Decode (b3 :: b4 :: r4))
       else replChar :: utf8Decode (b2 :: b3 :: b4 :: r4))
    else if lead4 b then
      (if cont4ok b b2 then
        (if isCont b3 then
          (if isCont b4 then dec4 b b2 b3 b4 :: utf8Decode r4
           else replChar :: utf8Decode (b4 :: r4))
         else replChar :: utf8Decode (b3 :: b4 :: r4))
       else replChar :: utf8Decode (b2 :: b3 :: b4 :: r4))
    else replChar :: utf8Decode (b2 :: b3 :: b4 :: r4)

/-- Assemble the scan: maximal runs of bytes are decoded as UTF-8, literal
characters pass through.  `buf` holds the pending byte run in reverse. -/
def unquoteGo : List UQTok → List Nat → Str
  | [], buf => utf8Decode buf.reverse
  | .chr c :: r, buf => utf8Decode buf.reverse ++ c :: unquoteGo r []
  | .byte b :: r, buf => unquoteGo r (b :: buf)

/-- Embedding of `urllib.parse.unquote` (with the default
`encoding='utf-8', errors='replace'` that `parse_qsl` and `url2pathname`
use). -/
def unquote (s : Str) : Str := unquoteGo (unquoteScan s) []

/-- `str.replace('+', ' ')` used by `parse_qsl` before unquoting. -/
def plusToSpace (s : Str) : Str := s.map (fun c => if c = '+' then ' ' else c)

/-- Query-string unquoting of one name or value in `parse_qsl`. -/
def qsUnquote (s : Str) : Str := unquote (plusToSpace s)

/-- Python `str.split(sep)` for a single-character separator: the list of
(possibly empty) groups between occurrences of `c`.  (`''.split(c)` gives
`['']`, matching this definition at `[]`.) -/
def splitOnChar (c : Char) : Str → List Str
  | [] => [[]]
  | a :: r =>
    if a = c then [] :: splitOnChar c r
    else
      match splitOnChar c r with
      | [] => [[a]]
      | g :: gs => (a :: g) :: gs

/-- One `name=value` pair of `parse_qsl` (with the default
`keep_blank_values=False, strict_parsing=False`): empty chunks and chunks
without `=` are skipped, as are pairs whose value is empty; name and value
get `+`→space then percent-decoding. -/
def parseQslPair (nv : Str) : Option (Str × Str) :=
  if nv = [] then none
  else
    let name := nv.takeWhile (fun c => !(c = '='))
    let rest := nv.dropWhile (fun c => !(c = '='))
    if rest = [] then none
    else if rest.tail = [] then none
    else some (qsUnquote name, qsUnquote rest.tail)

/-- Embedding of `urllib.parse.parse_qsl` with default arguments (CPython
3.11: the separator is `&` only; the empty query yields no pairs). -/
def parse_qsl (qs : Str) : List (Str × Str) :=
  if qs = [] then [] else (splitOnChar '&' qs).filterMap parseQslPair

/-- `dict(pairs).get(k, None)`: the value of the last pair with key `k`. -/
def dictGet (k : Str) (ps : List (Str × Str)) : Option Str :=
  ps.foldl (fun acc p => if p.1 = k then some p.2 else acc) none

/-! ## The part codec (`mk_part_uri` / `get_part_from_uri`) -/

/-- Result of `get_part_from_uri`: Python returns `None`, an `int`, or a
`str`; the `Option` in `get_part_from_uri` covers `None`. -/
inductive PartVal where
  | int (n : Int)
  | str (s : Str)
deriving DecidableEq, Repr

/-- Embedding of `mk_part_uri` from the source:
`'{}#part={:d}'.format(uri, idx)`. -/
def mk_part_uri (uri : Str) (idx : Int) : Str :=
  uri ++ '#' :: 'p' :: 'a' :: 'r' :: 't' :: '=' :: intDec idx

/-- The `maybe_int` helper inside `get_part_from_uri`: `int(v)` with
`ValueError` falling back to the string itself. -/
def maybe_int : Option Str → Option PartVal
  | none => none
  | some v =>
    match pyIntOfStr v with
    | some n => some (.int n)
    | none => some (.str v)

/-- Embedding of `get_part_from_uri` from the source:
`maybe_int(dict(parse_qsl(urlparse(uri).fragment)).get('part', None))`;
a `ValueError` escaping `urlparse` propagates. -/
def get_part_from_uri (uri : Str) : Except PyErr (Option PartVal) :=
  (urlsplit uri).map
    (fun comp => maybe_int (dictGet (strL ("part")) (parse_qsl comp.fragment)))

/-! ### Evaluation of the codec pipeline on clean strings -/

theorem intDec_char_toNat (n : Int) :
    ∀ c ∈ intDec n, c.toNat = 45 ∨ (48 ≤ c.toNat ∧ c.toNat ≤ 57) := by
  intro c hc
  rcases intDec_all n c hc with h | h
  · exact Or.inr (char_isDigit_toNat h)
  · subst h; exact Or.inl rfl

theorem intDec_ne_nil (n : Int) : intDec n ≠ [] := by
  rw [intDec]
  split
  · simp
  · exact natDec_ne_nil _

theorem intDec_ne_char (n : Int) {d : Char} (hd : d.toNat ≠ 45)
    (hd2 : ¬(48 ≤ d.toNat ∧ d.toNat ≤ 57)) : ∀ c ∈ intDec n, c ≠ d := by
  intro c hc
  rcases intDec_char_toNat n c hc with h | h <;>
    exact char_ne_of_toNat_ne (by omega)

theorem unquoteScan_no_pct : ∀ {s : Str}, '%' ∉ s → unquoteScan s = s.map UQTok.chr := by
  intro s
  induction s with
  | nil => intro _; rfl
  | cons c r ih =>
    intro h
    have hc : ¬c = '%' := fun e => h (e ▸ List.mem_cons_self c r)
    have hr : '%' ∉ r := fun m => h (List.mem_cons_of_mem c m)
    rcases r with _ | ⟨h1, _ | ⟨h2, r2⟩⟩
    · simp [unquoteScan, hc]
    · simp [unquoteScan, hc]
    · simp only [List.map_cons]
      rw [show unquoteScan (c :: h1 :: h2 :: r2) = .chr c :: unquoteScan (h1 :: h2 :: r2) by
        conv_lhs => rw [unquoteScan.eq_def]
        simp [hc]]
      rw [ih hr]
      simp

theorem unquoteGo_chrs : ∀ l : Str, unquoteGo (l.map UQTok.chr) [] = l := by
  intro l
  induction l with
  | nil => rfl
  | cons c r ih => simp [unquoteGo, utf8Decode, ih]

/-- `unquote` is the identity on percent-free strings. -/
theorem unquote_no_pct {s : Str} (h : '%' ∉ s) : unquote s = s := by
  rw [unquote, unquoteScan_no_pct h, unquoteGo_chrs]

theorem plusToSpace_no_plus {s : Str} (h : '+' ∉ s) : plusToSpace s = s := by
  rw [plusToSpace]
  conv_rhs => rw [← List.map_id s]
  apply List.map_congr_left
  intro c hc
  have : ¬c = '+' := fun e => h (e ▸ hc)
  simp [this]

theorem qsUnquote_clean {s : Str} (hp : '%' ∉ s) (hl : '+' ∉ s) :
    qsUnquote s = s := by
  rw [qsUnquote, plusToSpace_no_plus hl, unquote_no_pct hp]

theorem splitOnChar_of_not_mem {c : Char} : ∀ {s : Str}, c ∉ s → splitOnChar c s = [s] := by
  intro s
  induction s with
  | nil => intro _; rfl
  | cons a r ih =>
    intro h
    have ha : ¬a = c := fun e => h (e ▸ List.mem_cons_self a r)
    have hr : c ∉ r := fun m => h (List.mem_cons_of_mem a m)
    rw [splitOnChar, if_neg ha, ih hr]

/-- The fragment written by `mk_part_uri`, parsed by `parse_qsl`: a single
`part` pair carrying the decimal text. -/
theorem parse_qsl_part_fragment (v : Str) (hv : v ≠ [])
    (hamp : '&' ∉ v) (hpct : '%' ∉ v) (hplus : '+' ∉ v) :
    parse_qsl ('p' :: 'a' :: 'r' :: 't' :: '=' :: v) =
      [(strL ("part"), v)] := by
  have hqs : '&' ∉ ('p' :: 'a' :: 'r' :: 't' :: '=' :: v) := by
    simp only [List.mem_cons, not_or]
    exact ⟨by decide, by decide, by decide, by decide, by decide, hamp⟩
  have hdrop : ('p' :: 'a' :: 'r' :: 't' :: '=' :: v).dropWhile (fun c => !(c = '=')) =
      '=' :: v := by
    rw [List.dropWhile_cons_of_pos (by decide), List.dropWhile_cons_of_pos (by decide),
      List.dropWhile_cons_of_pos (by decide), List.dropWhile_cons_of_pos (by decide),
      List.dropWhile_cons_of_neg (by decide)]
  have htake : ('p' :: 'a' :: 'r' :: 't' :: '=' :: v).takeWhile (fun c => !(c = '=')) =
      strL ("part") := by
    rw [List.takeWhile_cons_of_pos (by decide), List.takeWhile_cons_of_pos (by decide),
      List.takeWhile_cons_of_pos (by decide), List.takeWhile_cons_of_pos (by decide),
      List.takeWhile_cons_of_neg (by decide)]
    rfl
  have hpair : parseQslPair ('p' :: 'a' :: 'r' :: 't' :: '=' :: v) =
      some (strL ("part"), v) := by
    rw [parseQslPair, if_neg (by simp), hdrop, htake]
    rw [if_neg (by simp), List.tail_cons, if_neg hv, qsUnquote_clean hpct hplus]
    rw [show qsUnquote (strL ("part")) = strL ("part") from by decide]
  rw [parse_qsl, if_neg (by simp), splitOnChar_of_not_mem hqs,
    List.filterMap_cons, hpair, List.filterMap_nil]

/-- Round trip through the part codec, given a base locator without a
fragment on which `urlsplit` succeeds. -/
theorem get_part_roundtrip (u : Str) (n : Int) (r : SplitResult)
    (hu : '#' ∉ u) (h : urlsplit u = .ok r) :
    get_part_from_uri (mk_part_uri u n) = .ok (some (.int n)) := by
  have hstrip : stripUnsafe ('p' :: 'a' :: 'r' :: 't' :: '=' :: intDec n) =
      'p' :: 'a' :: 'r' :: 't' :: '=' :: intDec n := by
    rw [stripUnsafe, List.filter_eq_self]
    intro c hc
    simp only [List.mem_cons] at hc
    rcases hc with rfl | rfl | rfl | rfl | rfl | hc
    · decide
    · decide
    · decide
    · decide
    · decide
    · rcases intDec_char_toNat n c hc with hx | hx <;>
      · simp only [Bool.not_eq_true', Bool.or_eq_false_iff, decide_eq_false_iff_not]
        refine ⟨⟨?_, ?_⟩, ?_⟩
        · exact char_ne_of_toNat_ne (by rw [show ('\t').toNat = 9 from rfl]; omega)
        · exact char_ne_of_toNat_ne (by rw [show ('\n').toNat = 10 from rfl]; omega)
        · exact char_ne_of_toNat_ne (by rw [show ('\r').toNat = 13 from rfl]; omega)
  have hsplit := urlsplit_append_fragment u ('p' :: 'a' :: 'r' :: 't' :: '=' :: intDec n)
    r hu hstrip h
  rw [get_part_from_uri, mk_part_uri, hsplit]
  simp only [Except.map]
  rw [parse_qsl_part_fragment (intDec n) (intDec_ne_nil n)
    (fun hm => (intDec_ne_char n (by decide) (by decide) '&' hm) rfl)
    (fun hm => (intDec_ne_char n (by decide) (by decide) '%' hm) rfl)
    (fun hm => (intDec_ne_char n (by decide) (by decide) '+' hm) rfl)]
  rw [dictGet]
  simp only [List.foldl_cons, List.foldl_nil, if_pos rfl]
  simp only [if_true, ite_true, maybe_int, pyIntOfStr_intDec]

/-! ## `uri_to_local_path` and `url2pathname`

`urllib.request.url2pathname` is `unquote` on POSIX hosts; on `os.name ==
'nt'` it is `nturl2path.url2pathname`, embedded below from CPython
`Lib/nturl2path.py` including its `OSError('Bad URL: ...')` and the
`IndexError` from `comp[0][-1]` when the first drive component is empty. -/

/-- The host kind, i.e. `os.name`. -/
inductive OsName where
  | posix
  | nt
deriving DecidableEq, Repr

/-- Upper-case an ASCII letter (`str.upper` on the drive letter). -/
def asciiUpper (c : Char) : Char :=
  if 0x61 ≤ c.toNat && c.toNat ≤ 0x7A then Char.ofNat (c.toNat - 32) else c

/-- Embedding of `nturl2path.url2pathname`. -/
def nt_url2pathname (url : Str) : Except PyErr Str :=
  let u := url.map (fun c => if c = ':' then '|' else c)
  if !u.contains '|' then
    let u2 := if u.take 4 = ['/', '/', '/', '/'] then u.drop 2 else u
    .ok (unquote (List.intercalate ['\\'] (splitOnChar '/' u2)))
  else
    match splitOnChar '|' u with
    | [c0, c1] =>
      match c0.getLast? with
      | none => .error .indexOutOfRange
      | some d =>
        if asciiAlpha d then
          let comps := splitOnChar '/' c1
          let path1 := comps.foldl
            (fun acc comp => if comp = [] then acc else acc ++ '\\' :: unquote comp)
            [asciiUpper d, ':']
          if path1.getLast? = some ':' ∧ u.getLast? = some '/' then
            .ok (path1 ++ ['\\'])
          else .ok path1
        else .error .badUrl
    | _ => .error .badUrl

/-- `urllib.request.url2pathname`, host-dependent. -/
def url2pathname : OsName → Str → Except PyErr Str
  | .posix, p => .ok (unquote p)
  | .nt, p => nt_url2pathname p

/-- Embedding of `uri_to_local_path` from the source.  The final
`pathlib.Path(path)` wrapper is represented by the path string itself (see
the header note); `None` results are `Option.none`. -/
def uri_to_local_path (os : OsName) (local_uri : Option Str) :
    Except PyErr (Option Str) :=
  match local_uri with
  | none => .ok none
  | some u =>
    if u = [] then .ok none
    else
      match urlsplit u with
      | .error e => .error e
      | .ok comp =>
        if ¬(comp.scheme = strL ("file")) then .error .unsupportedScheme
        else
          match url2pathname os comp.path with
          | .error e => .error e
          | .ok path =>
            if ¬(comp.netloc = []) then
              if os = .nt then .ok (some ('/' :: '/' :: comp.netloc ++ path))
              else .error .unsupportedNetloc
            else .ok (some path)

/-! ## `pathlib.PurePosixPath` and `os.path.normpath`

A `PurePosixPath` is represented by its root (0, 1 or 2 leading slashes —
POSIX treats exactly two leading slashes specially) and its segments
(split on `/`, with empty segments and `.` dropped).  `str(path)` is the
canonical rendering, `.` for an empty relative path. -/

/-- Number of presentation slashes of the root: 2 exactly for a `//` prefix
not followed by a third slash, 1 for any other leading slash, 0 otherwise
(shared by `pathlib` parsing and `normpath`). -/
def rootCount (s : Str) : Nat :=
  if s.take 2 = ['/', '/'] ∧ ¬(s.take 3 = ['/', '/', '/']) then 2
  else if s.take 1 = ['/'] then 1
  else 0

/-- Parsed `PurePosixPath`. -/
structure PosixParts where
  root : Nat
  segs : List Str
deriving DecidableEq, Repr

/-- Segments kept by `pathlib` parsing (drops empty and `.`). -/
def keepSeg (seg : Str) : Bool := !(seg = []) && !(seg = ['.'])

/-- `PurePosixPath(s)`: parse a string. -/
def pathlibParse (s : Str) : PosixParts :=
  ⟨rootCount s, (splitOnChar '/' s).filter keepSeg⟩

/-- `str(path)` for a parsed path (`.` for an empty relative path). -/
def pathlibStr (p : PosixParts) : Str :=
  let body := List.intercalate ['/'] p.segs
  if p.root = 0 ∧ body = [] then ['.']
  else List.replicate p.root '/' ++ body

/-- `base / q` for a relative `q`: keep the base root, append segments. -/
def pathlibJoin (b q : PosixParts) : PosixParts := ⟨b.root, b.segs ++ q.segs⟩

/-- `PurePosixPath.is_absolute`: a root is present. -/
def posixIsAbsolute (p : PosixParts) : Bool := !(p.root = 0)

/-- One step of the component loop of `normpath` (`slashes` is
`initial_slashes`, `acc` the accumulated components). -/
def npStep (slashes : Nat) (acc : List Str) (comp : Str) : List Str :=
  if comp = [] ∨ comp = ['.'] then acc
  else if ¬(comp = ['.', '.']) ∨ (slashes = 0 ∧ acc = []) ∨
      (¬(acc = []) ∧ acc.getLast? = some ['.', '.']) then acc ++ [comp]
  else if ¬(acc = []) then acc.dropLast
  else acc

/-- Final assembly of `normpath`: `sep.join` the components, prefix the
initial slashes, and return `'.'` for an empty result (`return path or dot`). -/
def normJoin (slashes : Nat) (comps : List Str) : Str :=
  if List.replicate slashes '/' ++ List.intercalate ['/'] comps = [] then ['.']
  else List.replicate slashes '/' ++ List.intercalate ['/'] comps

/-- Embedding of `posixpath.normpath` (CPython `Lib/posixpath.py`):
resolve `.`/`..` and redundant separators lexically. -/
def normpath (path : Str) : Str :=
  if path = [] then ['.']
  else normJoin (rootCount path) ((splitOnChar '/' path).foldl (npStep (rootCount path)) [])

/-! ## `default_base_dir`

The process environment and filesystem are an oracle: `cwd` is the
kernel-resolved current directory (`pathlib.Path('.').resolve()`, assumed
canonical), `pwdVar` is `os.environ.get('PWD')`, and `resolve` models
`Path.resolve()` on the shell-reported path (`none` models a raised
`IOError`).  `Path` equality compares canonical strings. -/

structure BaseEnv where
  pwdVar : Option Str
  cwd : Str
  resolve : Str → Option Str

/-- Embedding of `default_base_dir` from the source. -/
def default_base_dir (env : BaseEnv) : Str :=
  match env.pwdVar with
  | none => env.cwd
  | some pwdRaw =>
    let pwd := pathlibParse pwdRaw
    if ¬(posixIsAbsolute pwd = true) then env.cwd
    else
      match env.resolve (pathlibStr pwd) with
      | none => env.cwd
      | some pwdResolved =>
        if ¬(env.cwd = pwdResolved) then env.cwd else pathlibStr pwd

/-! ## `normalise_path` -/

/-- Embedding of `normalise_path` from the source.  The entry conversions
`pathlib.Path(p)` / `pathlib.Path(base)` are `pathlibParse`; `norm(p)` is
`normpath(str(p))` (the final `pathlib.Path(...)` wrapper is the identity
on `normpath` output, whose segments are already canonical); the `assert`
type checks are discharged by typing. -/
def normalise_path (env : BaseEnv) (p : Str) (base : Option Str) :
    Except PyErr Str :=
  let pp := pathlibParse p
  if posixIsAbsolute pp then .ok (normpath (pathlibStr pp))
  else
    match base with
    | none =>
      .ok (normpath (pathlibStr (pathlibJoin (pathlibParse (default_base_dir env)) pp)))
    | some bs =>
      let bp := pathlibParse bs
      if posixIsAbsolute bp then .ok (normpath (pathlibStr (pathlibJoin bp pp)))
      else .error .relativeBase

/-! ## `as_url`

`pathlib.Path(x).absolute()` prepends the current directory to a relative
path (no lexical normalisation beyond `pathlib` parsing); `as_uri()`
requires an absolute path and produces `'file://' + quote(bytes(path))`
with the default safe set (ASCII alphanumerics, `_.-~`, and `/`),
percent-encoding all other bytes of the UTF-8 encoding, upper-case hex. -/

/-- Bytes that `urllib.parse.quote` leaves unescaped (default `safe='/'`). -/
def quoteSafe (c : Char) : Bool :=
  (0x41 ≤ c.toNat && c.toNat ≤ 0x5A) || (0x61 ≤ c.toNat && c.toNat ≤ 0x7A) ||
  (0x30 ≤ c.toNat && c.toNat ≤ 0x39) ||
  c = '_' || c = '.' || c = '-' || c = '~' || c = '/'

/-- Upper-case hexadecimal digit. -/
def hexDigitUpper (d : Nat) : Char :=
  if d < 10 then Char.ofNat (48 + d) else Char.ofNat (55 + d)

/-- UTF-8 encoding of one character. -/
def utf8Encode (c : Char) : List Nat :=
  let n := c.toNat
  if n < 0x80 then [n]
  else if n < 0x800 then [0xC0 + n / 0x40, 0x80 + n % 0x40]
  else if n < 0x10000 then
    [0xE0 + n / 0x1000, 0x80 + (n / 0x40) % 0x40, 0x80 + n % 0x40]
  else
    [0xF0 + n / 0x40000, 0x80 + (n / 0x1000) % 0x40, 0x80 + (n / 0x40) % 0x40,
      0x80 + n % 0x40]

/-- `%XX` escape of one byte. -/
def pctEncodeByte (b : Nat) : Str := ['%', hexDigitUpper (b / 16), hexDigitUpper (b % 16)]

/-- Embedding of `urllib.parse.quote` with `safe='/'` as `as_uri` uses it. -/
def pyQuote (s : Str) : Str :=
  s.foldr (fun c acc =>
    (if quoteSafe c then [c]
     else (utf8Encode c).foldr (fun b a => pctEncodeByte b ++ a) []) ++ acc) []

/-- Python regex `\s` with its behaviour above U+00FF supplied as the
parameter `sext`: up to U+00FF the exhaustively verified table `pySpaceChar`
is exact; Python's Unicode table beyond that is not transcribed, so theorems
about the classifier quantify over every possible `sext` and hence hold in
particular at the real table. -/
def pySpaceCharW (sext : Char → Bool) (c : Char) : Bool :=
  if c.toNat ≤ 0xFF then pySpaceChar c else sext c

/-- The `URL_RE` class `[\w\d\+]` with its behaviour above U+00FF supplied
as the parameter `wext` (see `pySpaceCharW`). -/
def urlReClassW (wext : Char → Bool) (c : Char) : Bool :=
  if c.toNat ≤ 0xFF then urlReClass c else wext c

/-- The `URL_RE` matcher over the parameterised classes (same matching
logic as `matchUrlRe`). -/
def matchUrlReW (wext sext : Char → Bool) (s : Str) : Bool :=
  let t := s.dropWhile (pySpaceCharW sext)
  !(t.takeWhile (urlReClassW wext)).isEmpty &&
    startsCSS (t.dropWhile (urlReClassW wext))

/-- Embedding of `is_url` over the parameterised classes; at the zero
extension it coincides with the fixed-table `is_url` (`is_urlW_zero`). -/
def is_urlW (wext sext : Char → Bool) : PyVal → Bool
  | .pstr s => matchUrlReW wext sext s
  | .nonstr => false

/-- Embedding of `as_url` from the source: return the value unchanged when
`is_url` accepts it, else `pathlib.Path(maybe_uri).absolute().as_uri()`.
`cwd` is the process working directory consulted by `absolute()`.  The only
dependence of the source function on the regex module is the `is_url` call,
so its behaviour above U+00FF is captured completely by the class
parameters `wext`/`sext`. -/
def as_url (wext sext : Char → Bool) (cwd : Str) (maybe_uri : Str) :
    Except PyErr Str :=
  if is_urlW wext sext (.pstr maybe_uri) then .ok maybe_uri
  else
    let pp := pathlibParse maybe_uri
    let ab := if posixIsAbsolute pp then pp else pathlibJoin (pathlibParse cwd) pp
    if posixIsAbsolute ab then
      .ok ('f' :: 'i' :: 'l' :: 'e' :: ':' :: '/' :: '/' :: pyQuote (pathlibStr ab))
    else .error .uriFromRelativePath

/-! ### Lexical-normalisation lemmas for `normalise_path` (C6, C7) -/

theorem splitOnChar_ne_nil (c : Char) : ∀ s : Str, splitOnChar c s ≠ [] := by
  intro s
  cases s with
  | nil => simp [splitOnChar]
  | cons a r =>
    rw [splitOnChar]
    split
    · simp
    · cases h : splitOnChar c r <;> simp

theorem splitOnChar_groups_no_sep (c : Char) :
    ∀ s : Str, ∀ g ∈ splitOnChar c s, c ∉ g := by
  intro s
  induction s with
  | nil =>
    intro g hg
    simp [splitOnChar] at hg
    subst hg; simp
  | cons a r ih =>
    intro g hg
    rw [splitOnChar] at hg
    by_cases ha : a = c
    · rw [if_pos ha] at hg
      rcases List.mem_cons.mp hg with rfl | hg
      · simp
      · exact ih g hg
    · rw [if_neg ha] at hg
      cases hsp : splitOnChar c r with
      | nil => exact absurd hsp (splitOnChar_ne_nil c r)
      | cons g0 gs =>
        rw [hsp] at hg
        rcases List.mem_cons.mp hg with rfl | hg
        · intro hm
          rcases List.mem_cons.mp hm with hca | hm
          · exact ha hca.symm
          · exact ih g0 (hsp ▸ List.mem_cons_self g0 gs) hm
        · exact ih g (hsp ▸ List.mem_cons_of_mem g0 hg)

theorem splitOnChar_append_sep (c : Char) :
    ∀ (a b : Str), splitOnChar c (a ++ c :: b) = splitOnChar c a ++ splitOnChar c b := by
  intro a b
  induction a with
  | nil => simp [splitOnChar]
  | cons x a2 ih =>
    rw [List.cons_append, splitOnChar]
    conv_rhs => rw [splitOnChar]
    by_cases hx : x = c
    · rw [if_pos hx, if_pos hx, ih]
      rfl
    · rw [if_neg hx, if_neg hx, ih]
      cases hsp : splitOnChar c a2 with
      | nil => exact absurd hsp (splitOnChar_ne_nil c a2)
      | cons g gs => simp

theorem intercalate_one (c : Char) (g : Str) : List.intercalate [c] [g] = g := by
  simp [List.intercalate]

theorem intercalate_cons2 (c : Char) (g g2 : Str) (gs : List Str) :
    List.intercalate [c] (g :: g2 :: gs) = g ++ c :: List.intercalate [c] (g2 :: gs) := by
  simp [List.intercalate, List.intersperse]

theorem splitOnChar_intercalate (c : Char) :
    ∀ (gs : List Str), gs ≠ [] → (∀ g ∈ gs, c ∉ g) →
      splitOnChar c (List.intercalate [c] gs) = gs := by
  intro gs
  induction gs with
  | nil => intro h _; exact absurd rfl h
  | cons g gs2 ih =>
    intro _ hfree
    cases gs2 with
    | nil =>
      rw [intercalate_one c g,
        splitOnChar_of_not_mem (hfree g (List.mem_cons_self g []))]
    | cons g2 gs3 =>
      rw [intercalate_cons2 c g g2 gs3, splitOnChar_append_sep,
        splitOnChar_of_not_mem (hfree g (List.mem_cons_self g (g2 :: gs3))),
        ih (by simp) (fun x hx => hfree x (List.mem_cons_of_mem g hx))]
      rfl

/-- The component loop of `normpath` ignores exactly the components that
`pathlib` parsing drops. -/
theorem foldl_npStep_filter (slashes : Nat) :
    ∀ (l : List Str) (acc : List Str),
      l.foldl (npStep slashes) acc = (l.filter keepSeg).foldl (npStep slashes) acc := by
  intro l
  induction l with
  | nil => intro acc; rfl
  | cons comp l ih =>
    intro acc
    by_cases hk : keepSeg comp = true
    · rw [List.foldl_cons, List.filter_cons_of_pos hk, List.foldl_cons, ih]
    · have hsk : comp = [] ∨ comp = ['.'] := by
        have h2 : keepSeg comp = false := by simpa using hk
        simp only [keepSeg, Bool.and_eq_false_iff, Bool.not_eq_false',
          decide_eq_true_eq] at h2
        exact h2
      rw [List.foldl_cons, List.filter_cons_of_neg (by simp [hk]),
        show npStep slashes acc comp = acc from by rw [npStep, if_pos hsk], ih]

theorem rootCount_le_two (s : Str) : rootCount s ≤ 2 := by
  rw [rootCount]
  split
  · omega
  · split <;> omega

theorem rootCount_cons_ne {gc : Char} (rest : Str) (h : ¬gc = '/') :
    rootCount (gc :: rest) = 0 := by
  rw [rootCount, if_neg, if_neg]
  · intro hx
    rw [show (gc :: rest).take 1 = [gc] from by simp] at hx
    exact h (List.cons.inj hx).1
  · rintro ⟨hx, -⟩
    rw [show (gc :: rest).take 2 = gc :: rest.take 1 from rfl] at hx
    exact h (List.cons.inj hx).1

theorem rootCount_one_cons_ne {gc : Char} (rest : Str) (h : ¬gc = '/') :
    rootCount ('/' :: gc :: rest) = 1 := by
  rw [rootCount, if_neg, if_pos (show List.take 1 ('/' :: gc :: rest) = ['/'] from rfl)]
  rintro ⟨hx, -⟩
  rw [show ('/' :: gc :: rest).take 2 = '/' :: [gc] from rfl] at hx
  exact h (List.cons.inj (List.cons.inj hx).2).1

theorem rootCount_two_cons_ne {gc : Char} (rest : Str) (h : ¬gc = '/') :
    rootCount ('/' :: '/' :: gc :: rest) = 2 := by
  rw [rootCount, if_pos]
  refine ⟨rfl, ?_⟩
  intro hx
  rw [show ('/' :: '/' :: gc :: rest).take 3 = '/' :: '/' :: [gc] from rfl] at hx
  exact h (List.cons.inj (List.cons.inj (List.cons.inj hx).2).2).1

/-- A non-empty first segment makes the intercalation start with its head. -/
theorem intercalate_head (c gc : Char) (g2 : Str) (gs : List Str) :
    ∃ t, List.intercalate [c] ((gc :: g2) :: gs) = gc :: t := by
  cases gs with
  | nil => exact ⟨g2, intercalate_one c _⟩
  | cons h hs =>
    exact ⟨g2 ++ c :: List.intercalate [c] (h :: hs), by rw [intercalate_cons2]; rfl⟩

theorem intercalate_ne_nil_of_head {g : Str} (gs : List Str) (hg : ¬g = []) :
    ¬List.intercalate ['/'] (g :: gs) = [] := by
  rcases g with _ | ⟨gc, g2⟩
  · exact absurd rfl hg
  · obtain ⟨t, ht⟩ := intercalate_head '/' gc g2 gs
    rw [ht]
    simp

theorem rootCount_repl_intercalate (r : Nat) (segs : List Str) (hr : r ≤ 2)
    (hsegs : ∀ g ∈ segs, ¬g = [] ∧ '/' ∉ g) (hne : ¬(r = 0 ∧ segs = [])) :
    rootCount (List.replicate r '/' ++ List.intercalate ['/'] segs) = r := by
  interval_cases r
  · rcases segs with _ | ⟨g, gs⟩
    · exact absurd ⟨rfl, rfl⟩ hne
    · obtain ⟨hg1, hg2⟩ := hsegs g (List.mem_cons_self g gs)
      rcases g with _ | ⟨gc, g2⟩
      · exact absurd rfl hg1
      · obtain ⟨t, ht⟩ := intercalate_head '/' gc g2 gs
        rw [List.replicate, List.nil_append, ht]
        exact rootCount_cons_ne t
          (fun e => hg2 (by rw [← e]; exact List.mem_cons_self gc g2))
  · rcases segs with _ | ⟨g, gs⟩
    · rw [show List.intercalate ['/'] ([] : List Str) = [] from rfl]
      decide
    · obtain ⟨hg1, hg2⟩ := hsegs g (List.mem_cons_self g gs)
      rcases g with _ | ⟨gc, g2⟩
      · exact absurd rfl hg1
      · obtain ⟨t, ht⟩ := intercalate_head '/' gc g2 gs
        rw [show List.replicate 1 '/' = ['/'] from rfl, ht, List.cons_append,
          List.nil_append]
        exact rootCount_one_cons_ne t
          (fun e => hg2 (by rw [← e]; exact List.mem_cons_self gc g2))
  · rcases segs with _ | ⟨g, gs⟩
    · rw [show List.intercalate ['/'] ([] : List Str) = [] from rfl]
      decide
    · obtain ⟨hg1, hg2⟩ := hsegs g (List.mem_cons_self g gs)
      rcases g with _ | ⟨gc, g2⟩
      · exact absurd rfl hg1
      · obtain ⟨t, ht⟩ := intercalate_head '/' gc g2 gs
        rw [show List.replicate 2 '/' = ['/', '/'] from rfl, ht, List.cons_append,
          List.cons_append, List.nil_append]
        exact rootCount_two_cons_ne t
          (fun e => hg2 (by rw [← e]; exact List.mem_cons_self gc g2))

theorem keepSeg_iff (g : Str) : keepSeg g = true ↔ ¬g = [] ∧ ¬g = ['.'] := by
  simp [keepSeg]

theorem segs_of_parse (s : Str) :
    ∀ g ∈ (splitOnChar '/' s).filter keepSeg, keepSeg g = true ∧ '/' ∉ g := by
  intro g hg
  exact ⟨(List.mem_filter.mp hg).2,
    splitOnChar_groups_no_sep '/' s g (List.mem_filter.mp hg).1⟩

theorem pathlibStr_shape (root : Nat) (segs : List Str)
    (hsegs : ∀ g ∈ segs, ¬g = []) (hne : ¬(root = 0 ∧ segs = [])) :
    pathlibStr ⟨root, segs⟩ = List.replicate root '/' ++ List.intercalate ['/'] segs := by
  rw [pathlibStr]
  rw [if_neg]
  rintro ⟨h0, hbody⟩
  apply hne
  refine ⟨h0, ?_⟩
  rcases segs with _ | ⟨g, gs⟩
  · rfl
  · exact absurd hbody (intercalate_ne_nil_of_head gs (hsegs g (List.mem_cons_self g gs)))

theorem filter_splitOnChar_repl (r : Nat) (segs : List Str) (hr : r ≤ 2)
    (hsegs : ∀ g ∈ segs, keepSeg g = true ∧ '/' ∉ g) :
    (splitOnChar '/' (List.replicate r '/' ++ List.intercalate ['/'] segs)).filter keepSeg
      = segs := by
  have hbase : (splitOnChar '/' (List.intercalate ['/'] segs)).filter keepSeg = segs := by
    rcases segs with _ | ⟨g, gs⟩
    · decide
    · rw [splitOnChar_intercalate '/' (g :: gs) (by simp) (fun x hx => (hsegs x hx).2)]
      exact List.filter_eq_self.mpr (fun x hx => (hsegs x hx).1)
  have hcons : ∀ x : Str, splitOnChar '/' ('/' :: x) = [] :: splitOnChar '/' x := by
    intro x; rw [splitOnChar, if_pos rfl]
  interval_cases r
  · simpa using hbase
  · rw [show List.replicate 1 '/' ++ List.intercalate ['/'] segs =
      '/' :: List.intercalate ['/'] segs from rfl, hcons,
      List.filter_cons_of_neg (by decide), hbase]
  · rw [show List.replicate 2 '/' ++ List.intercalate ['/'] segs =
      '/' :: '/' :: List.intercalate ['/'] segs from rfl, hcons, hcons,
      List.filter_cons_of_neg (by decide), List.filter_cons_of_neg (by decide), hbase]

theorem repl_intercalate_ne_nil (r : Nat) (segs : List Str)
    (hsegs : ∀ g ∈ segs, ¬g = []) (hne : ¬(r = 0 ∧ segs = [])) :
    ¬(List.replicate r '/' ++ List.intercalate ['/'] segs = []) := by
  intro h
  rcases List.append_eq_nil.mp h with ⟨h1, h2⟩
  have hr0 : r = 0 := by simpa using h1
  apply hne
  refine ⟨hr0, ?_⟩
  rcases segs with _ | ⟨g, gs⟩
  · rfl
  · exact absurd h2 (intercalate_ne_nil_of_head gs (hsegs g (List.mem_cons_self g gs)))

/-- Wrapping a string in `PurePosixPath` and rendering it back does not
change its lexical normal form: `normpath(str(Path(s))) = normpath(s)`. -/
theorem normpath_pathlibStr (s : Str) :
    normpath (pathlibStr (pathlibParse s)) = normpath s := by
  have hsegs := segs_of_parse s
  have hkeep : ∀ g ∈ (splitOnChar '/' s).filter keepSeg, ¬g = [] :=
    fun g hg => ((keepSeg_iff g).mp (hsegs g hg).1).1
  by_cases hcase : rootCount s = 0 ∧ (splitOnChar '/' s).filter keepSeg = []
  · obtain ⟨hr0, hseg0⟩ := hcase
    have ho : pathlibStr (pathlibParse s) = ['.'] := by
      rw [pathlibParse, hseg0, pathlibStr]
      simp [hr0, List.intercalate]
    rw [ho, show normpath ['.'] = ['.'] from by decide]
    by_cases hs : s = []
    · rw [hs]; decide
    · symm
      rw [normpath, if_neg hs, foldl_npStep_filter, hseg0, hr0]
      decide
  · have ho : pathlibStr (pathlibParse s) =
        List.replicate (rootCount s) '/' ++
          List.intercalate ['/'] ((splitOnChar '/' s).filter keepSeg) := by
      rw [pathlibParse]
      exact pathlibStr_shape _ _ hkeep hcase
    have hs : ¬s = [] := by
      intro h
      apply hcase
      subst h
      exact ⟨by decide, by decide⟩
    have hone := repl_intercalate_ne_nil (rootCount s) _ hkeep hcase
    rw [ho, normpath, if_neg hone,
      rootCount_repl_intercalate _ _ (rootCount_le_two s)
        (fun g hg => ⟨hkeep g hg, (hsegs g hg).2⟩) hcase,
      foldl_npStep_filter, filter_splitOnChar_repl _ _ (rootCount_le_two s) hsegs]
    rw [normpath, if_neg hs]
    rw [foldl_npStep_filter (rootCount s) (splitOnChar '/' s) []]

/-- With a root present (`initial_slashes ≥ 1`), the component loop of
`normpath` only ever accumulates real segments: never empty, `.`, or `..`. -/
theorem npStep_invariant (slashes : Nat) (hsl : 1 ≤ slashes) :
    ∀ (l acc : List Str),
      (∀ x ∈ acc, ¬x = [] ∧ ¬x = ['.'] ∧ ¬x = ['.', '.']) →
      ∀ x ∈ l.foldl (npStep slashes) acc, ¬x = [] ∧ ¬x = ['.'] ∧ ¬x = ['.', '.'] := by
  intro l
  induction l with
  | nil => intro acc hacc; exact hacc
  | cons comp l ih =>
    intro acc hacc
    rw [List.foldl_cons]
    apply ih
    intro x hx
    rw [npStep] at hx
    by_cases h1 : comp = [] ∨ comp = ['.']
    · rw [if_pos h1] at hx
      exact hacc x hx
    · rw [if_neg h1] at hx
      by_cases h2 : ¬comp = ['.', '.'] ∨ (slashes = 0 ∧ acc = []) ∨
          (¬acc = [] ∧ acc.getLast? = some ['.', '.'])
      · rw [if_pos h2] at hx
        rcases List.mem_append.mp hx with hx | hx
        · exact hacc x hx
        · have hxc : x = comp := by simpa using hx
          subst hxc
          push_neg at h1
          refine ⟨h1.1, h1.2, ?_⟩
          rcases h2 with h2 | h2 | h2
          · exact h2
          · omega
          · exact absurd ((hacc _ (List.mem_of_mem_getLast? h2.2)).2.2) (by simp)
      · rw [if_neg h2] at hx
        by_cases h3 : ¬acc = []
        · rw [if_pos h3] at hx
          exact hacc x (List.mem_of_mem_dropLast hx)
        · rw [if_neg h3] at hx
          exact hacc x hx

/-- Normal form of `normpath` on a rooted path: the root's slashes followed
by segments none of which is empty, `.`, or `..`. -/
theorem normpath_abs_normal_form (p : Str) (hp : 1 ≤ rootCount p) :
    ∃ comps, normpath p = List.replicate (rootCount p) '/' ++ List.intercalate ['/'] comps ∧
      ∀ x ∈ comps, ¬x = [] ∧ ¬x = ['.'] ∧ ¬x = ['.', '.'] := by
  have hne : ¬p = [] := by
    intro h
    rw [h] at hp
    exact absurd hp (by decide)
  refine ⟨(splitOnChar '/' p).foldl (npStep (rootCount p)) [], ?_, ?_⟩
  · rw [normpath, if_neg hne, normJoin, if_neg]
    intro h
    rcases List.append_eq_nil.mp h with ⟨h1, -⟩
    have : rootCount p = 0 := by simpa using h1
    omega
  · exact npStep_invariant (rootCount p) hp (splitOnChar '/' p) [] (by simp)

/-- A rooted path normalises to a path that starts with `/`. -/
theorem normpath_abs_head (p : Str) (hp : 1 ≤ rootCount p) :
    (normpath p).take 1 = ['/'] := by
  obtain ⟨comps, hform, -⟩ := normpath_abs_normal_form p hp
  rw [hform]
  rcases hr : rootCount p with _ | k
  · omega
  · rw [List.replicate_succ, List.cons_append]
    rfl

theorem posixIsAbsolute_parse_iff (s : Str) :
    posixIsAbsolute (pathlibParse s) = true ↔ 1 ≤ rootCount s := by
  rw [posixIsAbsolute, show (pathlibParse s).root = rootCount s from rfl]
  simp
  omega

/-- Joining a relative path onto an absolute base and rendering keeps the
base's root. -/
theorem rootCount_pathlibStr_join (bs p : Str) (hb : 1 ≤ rootCount bs) :
    rootCount (pathlibStr (pathlibJoin (pathlibParse bs) (pathlibParse p))) =
      rootCount bs := by
  have hsegs : ∀ g ∈ (pathlibParse bs).segs ++ (pathlibParse p).segs,
      ¬g = [] ∧ '/' ∉ g := by
    intro g hg
    rcases List.mem_append.mp hg with h | h
    · have h2 := segs_of_parse bs g h
      exact ⟨((keepSeg_iff g).mp h2.1).1, h2.2⟩
    · have h2 := segs_of_parse p g h
      exact ⟨((keepSeg_iff g).mp h2.1).1, h2.2⟩
  have hroot : (pathlibParse bs).root = rootCount bs := rfl
  rw [pathlibJoin, pathlibStr_shape _ _ (fun g hg => (hsegs g hg).1)
    (by rintro ⟨h0, -⟩; rw [hroot] at h0; omega), hroot]
  exact rootCount_repl_intercalate _ _ (rootCount_le_two bs) hsegs
    (by rintro ⟨h0, -⟩; omega)

/-- Anything of the form `file://...` matches `URL_RE`. -/
theorem matchUrlRe_file (x : Str) :
    matchUrlRe ('f' :: 'i' :: 'l' :: 'e' :: ':' :: '/' :: '/' :: x) = true := by
  rw [matchUrlRe]
  rw [List.dropWhile_cons_of_neg (by decide)]
  rw [List.takeWhile_cons_of_pos (by decide), List.takeWhile_cons_of_pos (by decide),
    List.takeWhile_cons_of_pos (by decide), List.takeWhile_cons_of_pos (by decide),
    List.takeWhile_cons_of_neg (by decide)]
  rw [List.dropWhile_cons_of_pos (by decide), List.dropWhile_cons_of_pos (by decide),
    List.dropWhile_cons_of_pos (by decide), List.dropWhile_cons_of_pos (by decide),
    List.dropWhile_cons_of_neg (by decide)]
  rfl

/-- Below U+0100 the parameterised space class is the fixed table. -/
theorem pySpaceCharW_low (sext : Char → Bool) {c : Char} (h : c.toNat ≤ 0xFF) :
    pySpaceCharW sext c = pySpaceChar c := by
  rw [pySpaceCharW, if_pos h]

/-- Below U+0100 the parameterised scheme class is the fixed table. -/
theorem urlReClassW_low (wext : Char → Bool) {c : Char} (h : c.toNat ≤ 0xFF) :
    urlReClassW wext c = urlReClass c := by
  rw [urlReClassW, if_pos h]

/-- The zero extension of the parameterised space class is the fixed table
(the fixed table holds no character above U+00FF). -/
theorem pySpaceCharW_zero (c : Char) :
    pySpaceCharW (fun _ => false) c = pySpaceChar c := by
  by_cases h : c.toNat ≤ 0xFF
  · exact pySpaceCharW_low _ h
  · rw [pySpaceCharW, if_neg h]
    have hz : pySpaceChar c = false := by
      simp only [pySpaceChar, Bool.or_eq_false_iff, Bool.and_eq_false_iff,
        decide_eq_false_iff_not]
      omega
    rw [hz]

/-- The zero extension of the parameterised scheme class is the fixed table. -/
theorem urlReClassW_zero (c : Char) :
    urlReClassW (fun _ => false) c = urlReClass c := by
  by_cases h : c.toNat ≤ 0xFF
  · exact urlReClassW_low _ h
  · rw [urlReClassW, if_neg h]
    have hz : urlReClass c = false := by
      simp only [urlReClass, pyWordChar, latin1Word, Bool.or_eq_false_iff,
        Bool.and_eq_false_iff, decide_eq_false_iff_not]
      omega
    rw [hz]

/-- At the zero extension the parameterised matcher is `matchUrlRe`. -/
theorem matchUrlReW_zero (s : Str) :
    matchUrlReW (fun _ => false) (fun _ => false) s = matchUrlRe s := by
  have hs : pySpaceCharW (fun _ => false) = pySpaceChar := funext pySpaceCharW_zero
  have hw : urlReClassW (fun _ => false) = urlReClass := funext urlReClassW_zero
  simp only [matchUrlReW, matchUrlRe, hs, hw]

/-- At the zero extension the parameterised classifier is `is_url`. -/
theorem is_urlW_zero (v : PyVal) :
    is_urlW (fun _ => false) (fun _ => false) v = is_url v := by
  cases v with
  | pstr s => exact matchUrlReW_zero s
  | nonstr => rfl

/-- Anything of the form `file://...` matches `URL_RE` for every extension
of the character classes: the decision looks only at ASCII characters. -/
theorem matchUrlReW_file (wext sext : Char → Bool) (x : Str) :
    matchUrlReW wext sext ('f' :: 'i' :: 'l' :: 'e' :: ':' :: '/' :: '/' :: x)
      = true := by
  rw [matchUrlReW]
  rw [List.dropWhile_cons_of_neg (by rw [pySpaceCharW_low sext (by decide)]; decide)]
  rw [List.takeWhile_cons_of_pos (by rw [urlReClassW_low wext (by decide)]; decide),
    List.takeWhile_cons_of_pos (by rw [urlReClassW_low wext (by decide)]; decide),
    List.takeWhile_cons_of_pos (by rw [urlReClassW_low wext (by decide)]; decide),
    List.takeWhile_cons_of_pos (by rw [urlReClassW_low wext (by decide)]; decide),
    List.takeWhile_cons_of_neg (by rw [urlReClassW_low wext (by decide)]; decide)]
  rw [List.dropWhile_cons_of_pos (by rw [urlReClassW_low wext (by decide)]; decide),
    List.dropWhile_cons_of_pos (by rw [urlReClassW_low wext (by decide)]; decide),
    List.dropWhile_cons_of_pos (by rw [urlReClassW_low wext (by decide)]; decide),
    List.dropWhile_cons_of_pos (by rw [urlReClassW_low wext (by decide)]; decide),
    List.dropWhile_cons_of_neg (by rw [urlReClassW_low wext (by decide)]; decide)]
  rfl

/-! ## Claim theorems -/

/-- C1 (amended): for every base locator `u` without an existing fragment
and that URL parsing accepts, and every integer `n` (positive, zero, or
negative), `get_part_from_uri (mk_part_uri u n) = n`.  The parsing proviso
is forced: `urlsplit` can raise `ValueError` (e.g. on `"http://["`) before
the fragment is ever read.  Acceptance appears only in hypothesis position,
via the embedded parser, which accepts every really-accepted locator with
the same components (see the module docstring); appending `#part=<n>`
leaves the authority unchanged, so acceptance of `u` carries over to the
composite locator. -/
theorem claim_C1_part_roundtrip (u : Str) (n : Int) (comp : SplitResult)
    (h1 : '#' ∉ u) (h2 : urlsplit u = .ok comp) :
    get_part_from_uri (mk_part_uri u n) = .ok (some (.int n)) :=
  get_part_roundtrip u n comp h1 h2

/-- Witness for C1 at `u = "s3://bucket/key"`, `n = -7`. -/
theorem claim_C1_part_roundtrip_witness :
    ('#' ∉ strL ("s3://bucket/key")) ∧
      urlsplit (strL ("s3://bucket/key")) =
        .ok ⟨strL ("s3"), strL ("bucket"), strL ("/key"), [], []⟩ ∧
      get_part_from_uri (mk_part_uri (strL ("s3://bucket/key")) (-7)) =
        .ok (some (.int (-7))) :=
  ⟨by decide, by decide,
    claim_C1_part_roundtrip (strL ("s3://bucket/key")) (-7)
      ⟨strL ("s3"), strL ("bucket"), strL ("/key"), [], []⟩
      (by decide) (by decide)⟩

/-- Counterexample to C1 as stated: `u = "http://["` has no fragment, yet
the round trip raises `ValueError('Invalid IPv6 URL')` inside `urlparse`
instead of returning `0`. -/
theorem claim_C1_counterexample :
    ('#' ∉ strL ("http://[")) ∧
      ¬(get_part_from_uri (mk_part_uri (strL ("http://[")) 0) = .ok (some (.int 0))) ∧
      get_part_from_uri (mk_part_uri (strL ("http://[")) 0) = .error .invalidIPv6Url := by
  decide

/-- C2 (amended): `is_url` returns true on an ASCII string exactly when the
string matches `^\s*[A-Za-z0-9_+]+://`, and returns false (without raising)
on every non-string value.  The ASCII restriction is forced: the source
pattern's `\w` is Unicode-aware, so non-ASCII word characters (e.g. `é`)
are also accepted as scheme characters. -/
theorem claim_C2_is_url_classifier :
    (∀ s : Str, (∀ c ∈ s, c.toNat ≤ 127) →
      (is_url (.pstr s) = true ↔ SpecPattern s)) ∧
    is_url .nonstr = false := by
  constructor
  · intro s hs
    rw [show is_url (.pstr s) = matchUrlRe s from rfl,
      matchUrlRe_eq_specMatch_ascii hs]
    exact specMatch_iff_SpecPattern s
  · rfl

/-- Witness for C2 on the ASCII string `" s3://bucket"` and on a
non-string value. -/
theorem claim_C2_witness :
    (is_url (.pstr (strL (" s3://bucket"))) = true ↔ SpecPattern (strL (" s3://bucket"))) ∧
      is_url .nonstr = false :=
  ⟨claim_C2_is_url_classifier.1 (strL (" s3://bucket")) (by decide),
    claim_C2_is_url_classifier.2⟩

/-- Counterexample to C2 as stated: `is_url` accepts `"é://x"` (Python's
`\w` matches `é`), but the claim's pattern `^\s*[A-Za-z0-9_+]+://` does
not match it. -/
theorem claim_C2_counterexample :
    is_url (.pstr (strL ("é://x"))) = true ∧ ¬SpecPattern (strL ("é://x")) := by
  constructor
  · decide
  · intro h
    have h2 := (specMatch_iff_SpecPattern _).mpr h
    rw [show specMatch (strL ("é://x")) = false from by decide] at h2
    cases h2

/-- C3: `default_base_dir` returns the (pathlib-wrapped, unresolved)
shell-reported `PWD` value exactly when `PWD` is set, absolute,
filesystem-resolvable, and resolves to the kernel current directory; in
every other case it returns the kernel current directory. -/
theorem claim_C3_default_base_dir (env : BaseEnv) :
    (env.pwdVar = none → default_base_dir env = env.cwd) ∧
    (∀ p, env.pwdVar = some p → posixIsAbsolute (pathlibParse p) = false →
      default_base_dir env = env.cwd) ∧
    (∀ p, env.pwdVar = some p → env.resolve (pathlibStr (pathlibParse p)) = none →
      default_base_dir env = env.cwd) ∧
    (∀ p r, env.pwdVar = some p → env.resolve (pathlibStr (pathlibParse p)) = some r →
      ¬r = env.cwd → default_base_dir env = env.cwd) ∧
    (∀ p, env.pwdVar = some p → posixIsAbsolute (pathlibParse p) = true →
      env.resolve (pathlibStr (pathlibParse p)) = some env.cwd →
      default_base_dir env = pathlibStr (pathlibParse p)) := by
  refine ⟨?_, ?_, ?_, ?_, ?_⟩
  · intro h; rw [default_base_dir, h]
  · intro p h habs
    simp only [default_base_dir, h]
    rw [if_pos (by simp [habs])]
  · intro p h hres
    simp only [default_base_dir, h]
    by_cases habs : posixIsAbsolute (pathlibParse p) = true
    · rw [if_neg (by simp [habs]), hres]
    · rw [if_pos (by simpa using habs)]
  · intro p r h hres hne
    simp only [default_base_dir, h]
    by_cases habs : posixIsAbsolute (pathlibParse p) = true
    · rw [if_neg (by simp [habs])]
      simp only [hres]
      rw [if_pos (fun e => hne e.symm)]
    · rw [if_pos (by simpa using habs)]
  · intro p h habs hres
    simp only [default_base_dir, h]
    rw [if_neg (by simp [habs])]
    simp only [hres]
    rw [if_neg (by simp)]

/-- Witness for C3: a symlinked `PWD` that resolves to the kernel current
directory is returned unresolved. -/
theorem claim_C3_witness :
    default_base_dir
        ⟨some (strL ("/sym")), strL ("/real"),
          fun s => if s = strL ("/sym") then some (strL ("/real")) else none⟩ =
      pathlibStr (pathlibParse (strL ("/sym"))) :=
  (claim_C3_default_base_dir
    ⟨some (strL ("/sym")), strL ("/real"),
      fun s => if s = strL ("/sym") then some (strL ("/real")) else none⟩).2.2.2.2
    (strL ("/sym")) rfl (by decide) (by decide)

/-- C5 (amended): on any locator **that URL parsing accepts**, if the
parsed fragment carries a `part` value that does not parse as a base-10
integer, `get_part_from_uri` returns exactly that string value (and does
not raise).  The parsing proviso is forced by `urlsplit`'s
`ValueError('Invalid IPv6 URL')`. -/
theorem claim_C5_nonnumeric_part (u : Str) (comp : SplitResult) (v : Str)
    (h1 : urlsplit u = .ok comp)
    (h2 : dictGet (strL ("part")) (parse_qsl comp.fragment) = some v)
    (h3 : pyIntOfStr v = none) :
    get_part_from_uri u = .ok (some (.str v)) := by
  rw [get_part_from_uri, h1]
  simp only [Except.map]
  rw [h2]
  simp only [maybe_int, h3]

/-- Witness for C5 at `u = "file:///a#part=xx"`. -/
theorem claim_C5_witness :
    urlsplit (strL ("file:///a#part=xx")) =
        .ok ⟨strL ("file"), [], strL ("/a"), [], strL ("part=xx")⟩ ∧
      get_part_from_uri (strL ("file:///a#part=xx")) =
        .ok (some (.str (strL ("xx")))) :=
  ⟨by decide,
    claim_C5_nonnumeric_part (strL ("file:///a#part=xx"))
      ⟨strL ("file"), [], strL ("/a"), [], strL ("part=xx")⟩ (strL ("xx"))
      (by decide) (by decide) (by decide)⟩

/-- Counterexample to C5 as stated: `"http://[#part=abc"` carries the
fragment `part=abc` with a non-numeric value, yet `get_part_from_uri`
raises `ValueError('Invalid IPv6 URL')` instead of returning `"abc"`. -/
theorem claim_C5_counterexample :
    get_part_from_uri (strL ("http://[#part=abc")) = .error .invalidIPv6Url ∧
      ∀ x : Option PartVal,
        ¬(get_part_from_uri (strL ("http://[#part=abc")) = .ok x) := by
  refine ⟨by decide, ?_⟩
  intro x h
  rw [show get_part_from_uri (strL ("http://[#part=abc")) = .error .invalidIPv6Url
    from by decide] at h
  cases h

/-- C8: `uri_to_local_path` on an absent (`None`) or empty locator returns
absent and never raises, on either host kind. -/
theorem claim_C8_empty_locator (os : OsName) :
    uri_to_local_path os none = .ok none ∧ uri_to_local_path os (some []) = .ok none := by
  constructor
  · rfl
  · rw [uri_to_local_path, if_pos rfl]

/-- C4 (amended): on a non-empty locator **that URL parsing accepts**,
`uri_to_local_path` raises `UnsupportedSchemeError` exactly when the parsed
scheme is not `file`; with scheme `file`, the path component is decoded
first (which on Windows-like hosts can itself raise `OSError('Bad URL')` or
`IndexError` for malformed drive specifiers); with an authority present it
raises `UnsupportedNetlocError` on POSIX hosts and returns the UNC-style
`//<authority><path>` on Windows-like hosts; otherwise it returns the
decoded native path.  The parsing proviso and the decode-error caveat are
forced by `urlsplit` and `nturl2path`. -/
theorem claim_C4_uri_to_local_path (os : OsName) (u : Str) (comp : SplitResult)
    (hne : ¬u = []) (hp : urlsplit u = .ok comp) :
    (¬comp.scheme = strL ("file") →
      uri_to_local_path os (some u) = .error .unsupportedScheme) ∧
    (comp.scheme = strL ("file") → ∀ e, url2pathname os comp.path = .error e →
      uri_to_local_path os (some u) = .error e) ∧
    (comp.scheme = strL ("file") → ¬comp.netloc = [] → ∀ path,
      url2pathname os comp.path = .ok path →
      (os = .posix → uri_to_local_path os (some u) = .error .unsupportedNetloc) ∧
      (os = .nt →
        uri_to_local_path os (some u) = .ok (some ('/' :: '/' :: comp.netloc ++ path)))) ∧
    (comp.scheme = strL ("file") → comp.netloc = [] → ∀ path,
      url2pathname os comp.path = .ok path →
      uri_to_local_path os (some u) = .ok (some path)) := by
  refine ⟨?_, ?_, ?_, ?_⟩
  · intro hs
    rw [uri_to_local_path, if_neg hne]
    simp only [hp]
    rw [if_pos hs]
  · intro hs e he
    rw [uri_to_local_path, if_neg hne]
    simp only [hp]
    rw [if_neg (by simpa using hs)]
    simp only [he]
  · intro hs hn path hpath
    constructor
    · rintro rfl
      rw [uri_to_local_path, if_neg hne]
      simp only [hp]
      rw [if_neg (by simpa using hs)]
      simp only [hpath]
      rw [if_pos hn, if_neg (by simp)]
    · rintro rfl
      rw [uri_to_local_path, if_neg hne]
      simp only [hp]
      rw [if_neg (by simpa using hs)]
      simp only [hpath]
      rw [if_pos hn]
      simp
  · intro hs hn path hpath
    rw [uri_to_local_path, if_neg hne]
    simp only [hp]
    rw [if_neg (by simpa using hs)]
    simp only [hpath]
    rw [if_neg (by simpa using hn)]

/-- Witness for C4: `file:///tmp/x` on a POSIX host decodes to `/tmp/x`. -/
theorem claim_C4_witness :
    uri_to_local_path .posix (some (strL ("file:///tmp/x"))) =
      .ok (some (strL ("/tmp/x"))) :=
  (claim_C4_uri_to_local_path .posix (strL ("file:///tmp/x"))
      ⟨strL ("file"), [], strL ("/tmp/x"), [], []⟩ (by decide) (by decide)).2.2.2
    (by decide) (by decide) (strL ("/tmp/x")) (by decide)

/-- Counterexample to C4 as stated: on `"http://["` the parsed scheme is
not `file`, so the claim predicts `UnsupportedSchemeError`; the code
instead raises `ValueError('Invalid IPv6 URL')` from inside `urlparse`. -/
theorem claim_C4_counterexample :
    uri_to_local_path .posix (some (strL ("http://["))) = .error .invalidIPv6Url ∧
      ¬(uri_to_local_path .posix (some (strL ("http://["))) =
        .error .unsupportedScheme) := by
  decide

/-- C6: on an absolute input path, `normalise_path` returns the lexical
normal form of the path — the root's slashes followed by segments none of
which is empty, `.`, or `..` — without consulting the base argument or the
environment at all. -/
theorem claim_C6_normalise_absolute (env : BaseEnv) (p : Str) (base : Option Str)
    (hp : posixIsAbsolute (pathlibParse p) = true) :
    normalise_path env p base = .ok (normpath p) ∧
    (∀ env2 base2, normalise_path env2 p base2 = normalise_path env p base) ∧
    ∃ comps,
      normpath p = List.replicate (rootCount p) '/' ++ List.intercalate ['/'] comps ∧
      1 ≤ rootCount p ∧
      ∀ x ∈ comps, ¬x = [] ∧ ¬x = ['.'] ∧ ¬x = ['.', '.'] := by
  have habs : 1 ≤ rootCount p := (posixIsAbsolute_parse_iff p).mp hp
  refine ⟨?_, ?_, ?_⟩
  · simp only [normalise_path]
    rw [if_pos hp, normpath_pathlibStr]
  · intro env2 base2
    simp only [normalise_path]
    rw [if_pos hp, if_pos hp]
  · obtain ⟨comps, h1, h2⟩ := normpath_abs_normal_form p habs
    exact ⟨comps, h1, habs, h2⟩

/-- Witness for C6: `normalise_path("/a/b/../c")` is `/a/c` under an
arbitrary environment and an (ignored) relative base. -/
theorem claim_C6_witness :
    normalise_path ⟨none, strL ("/cwd"), fun _ => none⟩ (strL ("/a/b/../c"))
        (some (strL ("some/relative/base"))) = .ok (strL ("/a/c")) := by
  rw [(claim_C6_normalise_absolute ⟨none, strL ("/cwd"), fun _ => none⟩
    (strL ("/a/b/../c")) (some (strL ("some/relative/base"))) (by decide)).1]
  decide

/-- C7: on a relative input path with an explicitly supplied base,
`normalise_path` returns the lexical normal form of the base joined with
the path (an absolute path) when the base is absolute, and raises
`RelativeBaseError` when the base is not absolute. -/
theorem claim_C7_normalise_relative (env : BaseEnv) (p bs : Str)
    (hp : posixIsAbsolute (pathlibParse p) = false) :
    (posixIsAbsolute (pathlibParse bs) = true →
      normalise_path env p (some bs) =
        .ok (normpath (pathlibStr (pathlibJoin (pathlibParse bs) (pathlibParse p)))) ∧
      ∃ out, normalise_path env p (some bs) = .ok out ∧ out.take 1 = ['/']) ∧
    (posixIsAbsolute (pathlibParse bs) = false →
      normalise_path env p (some bs) = .error .relativeBase) := by
  constructor
  · intro hb
    have heq : normalise_path env p (some bs) =
        .ok (normpath (pathlibStr (pathlibJoin (pathlibParse bs) (pathlibParse p)))) := by
      simp only [normalise_path]
      rw [if_neg (by simp [hp]), if_pos hb]
    refine ⟨heq, _, heq, ?_⟩
    apply normpath_abs_head
    rw [rootCount_pathlibStr_join bs p ((posixIsAbsolute_parse_iff bs).mp hb)]
    exact (posixIsAbsolute_parse_iff bs).mp hb
  · intro hb
    simp only [normalise_path]
    rw [if_neg (by simp [hp]), if_neg (by simp [hb])]

/-- Witness for C7: `normalise_path("c", base="/a/b")` is `/a/b/c`, and
`normalise_path("c", base="rel")` raises. -/
theorem claim_C7_witness :
    normalise_path ⟨none, strL ("/cwd"), fun _ => none⟩ (strL ("c"))
        (some (strL ("/a/b"))) = .ok (strL ("/a/b/c")) ∧
      normalise_path ⟨none, strL ("/cwd"), fun _ => none⟩ (strL ("c"))
        (some (strL ("rel"))) = .error .relativeBase := by
  constructor
  · rw [(claim_C7_normalise_relative ⟨none, strL ("/cwd"), fun _ => none⟩
      (strL ("c")) (strL ("/a/b")) (by decide)).1 (by decide) |>.1]
    decide
  · exact (claim_C7_normalise_relative ⟨none, strL ("/cwd"), fun _ => none⟩
      (strL ("c")) (strL ("rel")) (by decide)).2 (by decide)

/-- C9: `as_url` returns its input unchanged whenever the classifier
accepts it (no re-validation), and otherwise returns the `file` locator of
the input taken as a native path made absolute against the working
directory, with segments percent-encoded.  Stated for every extension
`wext`/`sext` of the character classes above U+00FF, hence in particular
for Python's real Unicode tables, so the branch split is the program's. -/
theorem claim_C9_as_url (wext sext : Char → Bool) (cwd s : Str) :
    (is_urlW wext sext (.pstr s) = true → as_url wext sext cwd s = .ok s) ∧
    (is_urlW wext sext (.pstr s) = false →
      posixIsAbsolute (pathlibParse cwd) = true →
      as_url wext sext cwd s = .ok (strL ("file://") ++ pyQuote (pathlibStr
        (if posixIsAbsolute (pathlibParse s) = true then pathlibParse s
         else pathlibJoin (pathlibParse cwd) (pathlibParse s))))) := by
  constructor
  · intro h
    rw [as_url, if_pos h]
  · intro h hcwd
    simp only [as_url]
    rw [if_neg (by simp [h])]
    by_cases hab : posixIsAbsolute (pathlibParse s) = true
    · rw [if_pos hab, if_pos hab]
      rfl
    · rw [if_neg hab]
      rw [if_pos (show posixIsAbsolute
        (pathlibJoin (pathlibParse cwd) (pathlibParse s)) = true from hcwd)]
      rfl

/-- Witness for C9 at the zero extension: a locator input is returned
unchanged; the absolute path `/tmp/x` becomes `file:///tmp/x`. -/
theorem claim_C9_witness :
    as_url (fun _ => false) (fun _ => false) (strL ("/w")) (strL ("file:///tmp/x"))
        = .ok (strL ("file:///tmp/x")) ∧
      as_url (fun _ => false) (fun _ => false) (strL ("/w")) (strL ("/tmp/x"))
        = .ok (strL ("file:///tmp/x")) := by
  constructor
  · exact (claim_C9_as_url (fun _ => false) (fun _ => false) (strL ("/w"))
      (strL ("file:///tmp/x"))).1 (by decide)
  · rw [(claim_C9_as_url (fun _ => false) (fun _ => false) (strL ("/w"))
      (strL ("/tmp/x"))).2 (by decide) (by decide)]
    decide

/-- C10 (implicit): every value `as_url` returns satisfies `is_url`, and
consequently `as_url` is idempotent.  Stated for every extension
`wext`/`sext` of the character classes above U+00FF, hence in particular
for Python's real Unicode tables: whichever branch produced the output, it
either already passed the classifier or carries the literal ASCII prefix
`file://`, which every extension of the classifier accepts. -/
theorem claim_C10_as_url_idempotent (wext sext : Char → Bool) (cwd s out : Str)
    (h : as_url wext sext cwd s = .ok out) :
    is_urlW wext sext (.pstr out) = true ∧ as_url wext sext cwd out = .ok out := by
  by_cases hu : is_urlW wext sext (.pstr s) = true
  · rw [as_url, if_pos hu] at h
    rcases Except.ok.inj h with rfl
    refine ⟨hu, ?_⟩
    rw [as_url, if_pos hu]
  · simp only [as_url] at h
    rw [if_neg (by simp [hu])] at h
    by_cases h2 : posixIsAbsolute
        (if posixIsAbsolute (pathlibParse s) = true then pathlibParse s
         else pathlibJoin (pathlibParse cwd) (pathlibParse s)) = true
    · rw [if_pos h2] at h
      rcases Except.ok.inj h with rfl
      have hfile : is_urlW wext sext (.pstr ('f' :: 'i' :: 'l' :: 'e' :: ':' ::
          '/' :: '/' :: pyQuote (pathlibStr
            (if posixIsAbsolute (pathlibParse s) = true then pathlibParse s
             else pathlibJoin (pathlibParse cwd) (pathlibParse s))))) = true :=
        matchUrlReW_file wext sext (pyQuote (pathlibStr
          (if posixIsAbsolute (pathlibParse s) = true then pathlibParse s
           else pathlibJoin (pathlibParse cwd) (pathlibParse s))))
      refine ⟨hfile, ?_⟩
      rw [as_url, if_pos hfile]
    · rw [if_neg h2] at h
      cases h

/-- Witness for C10 at the zero extension: `as_url("/w", "x")` yields
`file:///w/x`, which the classifier accepts and which `as_url` then
returns unchanged. -/
theorem claim_C10_witness :
    is_urlW (fun _ => false) (fun _ => false) (.pstr (strL ("file:///w/x"))) = true ∧
      as_url (fun _ => false) (fun _ => false) (strL ("/w")) (strL ("file:///w/x"))
        = .ok (strL ("file:///w/x")) :=
  claim_C10_as_url_idempotent (fun _ => false) (fun _ => false) (strL ("/w"))
    (strL ("x")) (strL ("file:///w/x")) (by decide)

end Uris



